import Mathlib

/-!
Verification of the Raw-to-Ready data-cleaning pipeline (`src/app_v2.py`,
with the divergent branches of `src/sprint3.py` modelled where a claim
cites them).  Machine floats are embedded as rationals; pandas `NaN`
(the missing sentinel) is embedded as a distinguished `Cell.missing`
constructor; fallible Python code (uncaught exceptions) returns `Option`.
-/

namespace RawToReady

/-! ## Cells and Python string primitives -/

/-- A cell of a pandas column as produced by `pd.read_csv`: a number, a
string, or the missing sentinel (`NaN`). -/
inductive Cell where
  | num (q : ℚ)
  | str (s : String)
  | missing
deriving DecidableEq, Repr

/-- `True` exactly on the missing sentinel (pandas `isnull`). -/
def Cell.isMissing : Cell → Bool
  | .missing => true
  | _ => false

/-- Python whitespace for `str.strip()` (ASCII model: space, tab, LF, CR,
vertical tab, form feed). -/
def isPySpace (c : Char) : Bool :=
  c = ' ' || c = '\t' || c = '\n' || c = '\r' || c = Char.ofNat 11 || c = Char.ofNat 12

/-- `str.strip()` on a character list: drop leading and trailing whitespace. -/
def stripList (l : List Char) : List Char :=
  ((l.dropWhile isPySpace).reverse.dropWhile isPySpace).reverse

/-- Python `str.strip()`. -/
def pyStrip (s : String) : String := String.mk (stripList s.data)

/-- Python `str.lower()` (ASCII model). -/
def pyLower (s : String) : String := String.mk (s.data.map Char.toLower)

/-- Helper for `str.title()`: the boolean records whether the previous
character was alphabetic. -/
def pyTitleGo : Bool → List Char → List Char
  | _, [] => []
  | prevAlpha, c :: cs =>
      (if c.isAlpha then (if prevAlpha then c.toLower else c.toUpper) else c)
        :: pyTitleGo c.isAlpha cs

/-- Python `str.title()`: uppercase each letter that follows a non-letter,
lowercase every other letter (ASCII model). -/
def pyTitle (s : String) : String := String.mk (pyTitleGo false s.data)

/-- Python `s.replace(a, b)` for single-character `a`, `b`: replace each
occurrence of the character. -/
def pyReplaceChar (s : String) (a b : Char) : String :=
  String.mk (s.data.map fun c => if c = a then b else c)

/-- Decimal text of a rational, standing in for Python `str` of a number.
(The exact float formatting is irrelevant downstream: it contains no `@`
and never has the shape of any date format.) -/
def ratText (q : ℚ) : String :=
  toString q.num ++ (if q.den = 1 then "" else "/" ++ toString q.den)

/-- Python `str(x)` applied to a cell.  `str(float('nan'))` is `"nan"`. -/
def pyStr : Cell → String
  | .num q => ratText q
  | .str s => s
  | .missing => "nan"

/-- `sub in s` for character lists (Python substring test). -/
def containsSubList (sub : List Char) : List Char → Bool
  | [] => sub.isEmpty
  | c :: cs => sub.isPrefixOf (c :: cs) || containsSubList sub cs

/-- Python `sub in s` on strings. -/
def containsSub (s sub : String) : Bool := containsSubList sub.data s.data

/-- `"email" in col_name.lower()` — the email-column naming heuristic. -/
def isEmailName (name : String) : Bool := containsSub (pyLower name) "email"

/-- `"date" in col.lower()` — the date-column naming heuristic. -/
def isDateName (name : String) : Bool := containsSub (pyLower name) "date"

/-! ## The email regex `[^@]+@[^@]+\.[^@]+` under `re.match`

`re.match` anchors at the start of the string only: the pattern must
match a *prefix* of the input.  The staged matchers below embed the
backtracking regex: `afterDotM` is `[^@]+` as a prefix pattern (one
non-`@` character suffices, the rest of the input is unconstrained),
`afterAt2M`/`afterAtM` is `[^@]+\.[^@]+`, and `emailMatch2M`/`emailMatchM`
is the whole pattern. -/

/-- Prefix match of the trailing `[^@]+`: at least one non-`@` character. -/
def afterDotM : List Char → Bool
  | [] => false
  | c :: _ => decide (c ≠ '@')

/-- Prefix match of `[^@]*\.[^@]+` given that one character of the middle
`[^@]+` has already been consumed: either use the next character as the
literal dot, or extend the middle run with any non-`@` character. -/
def afterAt2M : List Char → Bool
  | [] => false
  | c :: cs => (decide (c = '.') && afterDotM cs) || (decide (c ≠ '@') && afterAt2M cs)

/-- Prefix match of `[^@]+\.[^@]+`. -/
def afterAtM : List Char → Bool
  | [] => false
  | c :: cs => decide (c ≠ '@') && afterAt2M cs

/-- Prefix match of `[^@]*@[^@]+\.[^@]+` given that one character of the
leading `[^@]+` has already been consumed. -/
def emailMatch2M : List Char → Bool
  | [] => false
  | c :: cs => (decide (c = '@') && afterAtM cs) || (decide (c ≠ '@') && emailMatch2M cs)

/-- Prefix match of the full pattern `[^@]+@[^@]+\.[^@]+`. -/
def emailMatchM : List Char → Bool
  | [] => false
  | c :: cs => decide (c ≠ '@') && emailMatch2M cs

/-- `re.match(r"[^@]+@[^@]+\.[^@]+", s)` is truthy. -/
def emailOk (s : String) : Bool := emailMatchM s.data

/-- Modelled from the spec: the *anchored* pattern `^[^@]+@[^@]+\.[^@]+$`
that the specification text names.  Unlike the code's `re.match`, the
trailing `[^@]+$` must consume the whole remainder of the string. -/
def afterDotAnch (l : List Char) : Bool :=
  decide (l ≠ []) && l.all (fun c => decide (c ≠ '@'))

/-- Modelled from the spec: anchored `[^@]*\.[^@]+$` continuation. -/
def afterAt2Anch : List Char → Bool
  | [] => false
  | c :: cs => (decide (c = '.') && afterDotAnch cs) || (decide (c ≠ '@') && afterAt2Anch cs)

/-- Modelled from the spec: anchored `[^@]+\.[^@]+$`. -/
def afterAtAnch : List Char → Bool
  | [] => false
  | c :: cs => decide (c ≠ '@') && afterAt2Anch cs

/-- Modelled from the spec: anchored `[^@]*@[^@]+\.[^@]+$` continuation. -/
def emailMatch2Anch : List Char → Bool
  | [] => false
  | c :: cs => (decide (c = '@') && afterAtAnch cs) || (decide (c ≠ '@') && emailMatch2Anch cs)

/-- Modelled from the spec: the anchored pattern `^[^@]+@[^@]+\.[^@]+$`. -/
def emailOkAnchored (s : String) : Bool :=
  match s.data with
  | [] => false
  | c :: cs => decide (c ≠ '@') && emailMatch2Anch cs

/-- `validate_emails` applied to one cell:
`x if re.match(r"[^@]+@[^@]+\.[^@]+", str(x)) else "invalid@example.com"`. -/
def validateEmailCell (c : Cell) : Cell :=
  if emailOk (pyStr c) then c else Cell.str "invalid@example.com"

/-! ## `datetime.strptime` for the five formats of `standardize_dates`

CPython's `_strptime` compiles each directive to a regex: `%Y` is exactly
four digits, `%y` exactly two, `%m` is one or two digits with value 1–12,
`%d` one or two digits with value 1–31 (then validated against the
calendar by the `datetime` constructor, which also requires year 1–9999),
`%b` is a case-insensitive English month abbreviation, and whitespace in
the format matches one-or-more whitespace characters.  The whole input
must be consumed.  Separator-based formats are embedded by splitting on
the separator, which is equivalent because no field may contain its own
separator. -/

/-- Split a character list on a separator character. -/
def splitOnChar (sep : Char) : List Char → List (List Char)
  | [] => [[]]
  | c :: cs =>
      match splitOnChar sep cs with
      | [] => [[]]
      | g :: gs => if c = sep then [] :: g :: gs else (c :: g) :: gs

/-- Numeric value of a digit list. -/
def digitsVal (l : List Char) : Nat := l.foldl (fun a c => a * 10 + (c.toNat - 48)) 0

/-- A `%Y` field: exactly four digits. -/
def yearField4 (l : List Char) : Option Nat :=
  if l.length = 4 && l.all Char.isDigit then some (digitsVal l) else none

/-- A `%y` field: exactly two digits, mapped to 2000–2068 / 1969–1999. -/
def yearField2 (l : List Char) : Option Nat :=
  if l.length = 2 && l.all Char.isDigit then
    let v := digitsVal l
    some (if v ≤ 68 then v + 2000 else v + 1900)
  else none

/-- A `%m` field: one or two digits, value 1–12. -/
def monthField (l : List Char) : Option Nat :=
  if (l.length = 1 || l.length = 2) && l.all Char.isDigit then
    let v := digitsVal l
    if 1 ≤ v && v ≤ 12 then some v else none
  else none

/-- A `%d` field: one or two digits, value 1–31. -/
def dayField (l : List Char) : Option Nat :=
  if (l.length = 1 || l.length = 2) && l.all Char.isDigit then
    let v := digitsVal l
    if 1 ≤ v && v ≤ 31 then some v else none
  else none

/-- Gregorian leap year. -/
def isLeap (y : Nat) : Bool := y % 4 = 0 && (y % 100 ≠ 0 || y % 400 = 0)

/-- Days in a month (month 1–12). -/
def daysInMonth (y m : Nat) : Nat :=
  if m = 2 then (if isLeap y then 29 else 28)
  else if m = 4 || m = 6 || m = 9 || m = 11 then 30
  else 31

/-- The `datetime` constructor's validity check: year 1–9999 and a real
calendar day. -/
def validYMD (y m d : Nat) : Bool :=
  1 ≤ y && y ≤ 9999 && 1 ≤ m && m ≤ 12 && 1 ≤ d && d ≤ daysInMonth y m

/-- `strptime(s, "%Y<sep>%m<sep>%d")` for a separator character (used with
`-` and `.`). -/
def parseYMDsep (sep : Char) (s : List Char) : Option (Nat × Nat × Nat) :=
  match splitOnChar sep s with
  | [yf, mf, df] =>
      match yearField4 yf, monthField mf, dayField df with
      | some y, some m, some d => if validYMD y m d then some (y, m, d) else none
      | _, _, _ => none
  | _ => none

/-- `strptime(s, "%d/%m/%y")`. -/
def parseDMY2 (s : List Char) : Option (Nat × Nat × Nat) :=
  match splitOnChar '/' s with
  | [df, mf, yf] =>
      match yearField2 yf, monthField mf, dayField df with
      | some y, some m, some d => if validYMD y m d then some (y, m, d) else none
      | _, _, _ => none
  | _ => none

/-- `strptime(s, "%d/%m/%Y")`. -/
def parseDMY4 (s : List Char) : Option (Nat × Nat × Nat) :=
  match splitOnChar '/' s with
  | [df, mf, yf] =>
      match yearField4 yf, monthField mf, dayField df with
      | some y, some m, some d => if validYMD y m d then some (y, m, d) else none
      | _, _, _ => none
  | _ => none

/-- `%b`: case-insensitive English month abbreviation. -/
def monthAbbrev (l : List Char) : Option Nat :=
  match String.mk (l.map Char.toLower) with
  | "jan" => some 1 | "feb" => some 2 | "mar" => some 3 | "apr" => some 4
  | "may" => some 5 | "jun" => some 6 | "jul" => some 7 | "aug" => some 8
  | "sep" => some 9 | "oct" => some 10 | "nov" => some 11 | "dec" => some 12
  | _ => none

/-- One-or-more whitespace (a whitespace run in the format becomes `\s+`). -/
def munchWs1 (l : List Char) : Option (List Char) :=
  match l with
  | c :: cs => if isPySpace c then some (cs.dropWhile isPySpace) else none
  | [] => none

/-- `strptime(s, "%b %d, %Y")`. -/
def parseBdY (s : List Char) : Option (Nat × Nat × Nat) :=
  match monthAbbrev (s.take 3) with
  | none => none
  | some m =>
      match munchWs1 (s.drop 3) with
      | none => none
      | some r1 =>
          let dayRun := r1.takeWhile Char.isDigit
          match dayField dayRun with
          | none => none
          | some d =>
              match r1.dropWhile Char.isDigit with
              | ',' :: r2 =>
                  match munchWs1 r2 with
                  | none => none
                  | some r3 =>
                      match yearField4 r3 with
                      | some y => if validYMD y m d then some (y, m, d) else none
                      | none => none
              | _ => none

/-- Two-digit zero padding (`%m`, `%d` in `strftime`). -/
def pad2 (n : Nat) : String := if n < 10 then "0" ++ toString n else toString n

/-- `strftime("%Y-%m-%d")` (glibc prints the year unpadded). -/
def formatYMD (y m d : Nat) : String :=
  toString y ++ "-" ++ pad2 m ++ "-" ++ pad2 d

/-- `parse_date` inside `standardize_dates`: try the five formats in the
source order `%Y-%m-%d`, `%d/%m/%y`, `%d/%m/%Y`, `%b %d, %Y`, `%Y.%m.%d`;
the first success is reformatted to `%Y-%m-%d`, otherwise the cell passes
through unchanged. -/
def parseDateCell (x : Cell) : Cell :=
  let s := (pyStr x).data
  match parseYMDsep '-' s with
  | some (y, m, d) => Cell.str (formatYMD y m d)
  | none =>
    match parseDMY2 s with
    | some (y, m, d) => Cell.str (formatYMD y m d)
    | none =>
      match parseDMY4 s with
      | some (y, m, d) => Cell.str (formatYMD y m d)
      | none =>
        match parseBdY s with
        | some (y, m, d) => Cell.str (formatYMD y m d)
        | none =>
          match parseYMDsep '.' s with
          | some (y, m, d) => Cell.str (formatYMD y m d)
          | none => x

/-! ## `difflib.SequenceMatcher.ratio` and `get_close_matches`

For the short strings the pipeline compares (well under 200 characters),
`SequenceMatcher`'s junk machinery never triggers, so `ratio` is
`2*M/(|a|+|b|)` where `M` is the total size of the matching blocks:
recursively, the longest common substring — earliest start in `a`, then
earliest in `b`, among maximal ones — splits both sequences, and the left
and right remainders are matched recursively. -/

/-- Length of the common prefix of two character lists. -/
def commonPrefixLen : List Char → List Char → Nat
  | a :: as, b :: bs => if a = b then commonPrefixLen as bs + 1 else 0
  | _, _ => 0

/-- `find_longest_match` over the whole ranges: the triple `(i, j, k)` of
the maximal common substring, ties resolved to the smallest `i`, then the
smallest `j` (the fold updates only on a strictly larger size while
scanning `i` ascending, `j` ascending). -/
def longestMatch (a b : List Char) : Nat × Nat × Nat :=
  (List.range a.length).foldl (fun best i =>
    (List.range b.length).foldl (fun best j =>
      let k := commonPrefixLen (a.drop i) (b.drop j)
      if best.2.2 < k then (i, j, k) else best) best) (0, 0, 0)

/-- Total matched size, with explicit fuel.  Every recursive call strictly
shrinks `a` (the matched block is nonempty), so fuel `a.length + 1` never
runs out. -/
def matchSumF : Nat → List Char → List Char → Nat
  | 0, _, _ => 0
  | fuel + 1, a, b =>
      let t := longestMatch a b
      if t.2.2 = 0 then 0
      else
        matchSumF fuel (a.take t.1) (b.take t.2.1) + t.2.2 +
          matchSumF fuel (a.drop (t.1 + t.2.2)) (b.drop (t.2.1 + t.2.2))

/-- Total size of the matching blocks of `SequenceMatcher(None, a, b)`. -/
def matchSum (a b : List Char) : Nat := matchSumF (a.length + 1) a b

/-- `SequenceMatcher(None, a, b).ratio()`: `2*M/(|a|+|b|)`, and `1.0` when
both strings are empty. -/
def ratioQ (a b : String) : ℚ :=
  if a.data.length + b.data.length = 0 then 1
  else 2 * (matchSum a.data b.data : ℚ) / ((a.data.length : ℚ) + (b.data.length : ℚ))

/-- One key of the `get_close_matches` scan: keep the running best pair,
replacing it exactly when the new `(ratio, key)` pair is strictly larger
in the tuple order `max` uses — larger ratio, or equal ratio and a
lexicographically larger key. -/
def bmStep (v : String) (cutoff : ℚ) (best : Option (String × ℚ)) (k : String) :
    Option (String × ℚ) :=
  let r := ratioQ k v
  if cutoff ≤ r then
    match best with
    | none => some (k, r)
    | some p => if p.2 < r ∨ (p.2 = r ∧ p.1 < k) then some (k, r) else best
  else best

/-- `difflib.get_close_matches(v, keys, n=1, cutoff)`: among the keys with
`ratio ≥ cutoff`, the one with the largest ratio; `heapq.nlargest(1, ...)`
reduces to `max` over the `(ratio, key)` tuples, so among equal ratios
the lexicographically largest key wins.  `SequenceMatcher` is seeded
with `seq1 = key`, `seq2 = v`. -/
def bestMatch (v : String) (keys : List String) (cutoff : ℚ) : Option String :=
  (keys.foldl (bmStep v cutoff) none).map Prod.fst

/-- Distinct values in first-seen order (`Series.unique`). -/
def uniquesFS (l : List String) : List String :=
  l.foldl (fun acc s => if s ∈ acc then acc else acc ++ [s]) []

/-- The accumulating canonical mapping of `fuzzy_standardize`: for each
distinct value in order, `get_close_matches` against the keys inserted so
far; on a hit the value maps to the canonical value of the best-matching
key, otherwise to itself. -/
def buildFuzzyMap (us : List String) (cutoff : ℚ) : List (String × String) :=
  us.foldl (fun mp v =>
    match bestMatch v (mp.map Prod.fst) cutoff with
    | some k => mp ++ [(v, ((mp.lookup k).getD v))]
    | none => mp ++ [(v, v)]) []

/-- `fuzzy_standardize(series, cutoff)` from `app_v2.py`: the series is
first stringified and stripped (`astype(str).str.strip()`, so missing
cells become the string `"nan"` and `dropna` afterwards removes nothing),
the mapping is built over the distinct stripped values in first-seen
order, and `series.map(mapping)` rewrites every (stripped) cell. -/
def fuzzyStandardize (cells : List Cell) (cutoff : ℚ) : List Cell :=
  let stripped := cells.map (fun c => pyStrip (pyStr c))
  let mp := buildFuzzyMap (uniquesFS stripped) cutoff
  stripped.map (fun s => Cell.str ((mp.lookup s).getD s))

/-! ## The DataFrame model and the cleaning pipeline of `app_v2.py`

A DataFrame is a header list plus a row list.  A column is "numeric
dtype" exactly when every cell is a number or missing (how `read_csv`
types a column, preserved by every pipeline step); `select_dtypes` with
`object` selects the non-numeric columns. -/

/-- A pandas DataFrame: named columns over rectangular rows. -/
structure DF where
  headers : List String
  rows : List (List Cell)
deriving DecidableEq, Repr

/-- All rows have exactly one cell per header (the Dataset invariant). -/
def Rect (df : DF) : Prop := ∀ r ∈ df.rows, r.length = df.headers.length

instance : DecidablePred Rect := fun df =>
  decidable_of_iff (∀ r ∈ df.rows, r.length = df.headers.length) Iff.rfl

/-- Column `i` as a cell list. -/
def getCol (df : DF) (i : Nat) : List Cell :=
  df.rows.map (fun r => r.getD i Cell.missing)

/-- `df[col] = f(df[col])` for a cell-wise `f`: rewrite cell `i` of every
row. -/
def setColCW (df : DF) (i : Nat) (g : Cell → Cell) : DF :=
  { df with rows := df.rows.map (fun r => r.set i (g (r.getD i Cell.missing))) }

/-- `True` on number cells. -/
def Cell.isNum : Cell → Bool
  | .num _ => true
  | _ => false

/-- Numeric dtype: every cell a number or missing (an all-missing column
is a float column, hence numeric). -/
def isNumericCol (l : List Cell) : Bool := l.all (fun c => c.isNum || c.isMissing)

/-- `isnull().sum()` for one column. -/
def countMissing (l : List Cell) : Nat := l.countP (fun c => c.isMissing)

/-- The non-missing cells of a column. -/
def nonMissing (l : List Cell) : List Cell := l.filter (fun c => !c.isMissing)

/-- The numeric values of a column (pandas statistics skip `NaN`). -/
def numValues (l : List Cell) : List ℚ :=
  l.filterMap (fun c => match c with | .num q => some q | _ => none)

/-- `Series.mean()` over the non-missing values. -/
def meanQ (l : List ℚ) : ℚ := l.sum / l.length

/-- Insert into a sorted list (before the first element ≥ the new one). -/
def insertSorted {α : Type} (le : α → α → Bool) (x : α) : List α → List α
  | [] => [x]
  | y :: ys => if le x y then x :: y :: ys else y :: insertSorted le x ys

/-- Stable insertion sort (the sorted order pandas presents; the sorting
algorithm itself is not observable). -/
def insertionSort {α : Type} (le : α → α → Bool) : List α → List α
  | [] => []
  | x :: xs => insertSorted le x (insertionSort le xs)

/-- `Series.median()`: middle element, or the average of the two middle
elements, of the sorted values. -/
def medianQ (l : List ℚ) : ℚ :=
  let s := insertionSort (fun a b => decide (a ≤ b)) l
  if l.length % 2 = 1 then s.getD (l.length / 2) 0
  else (s.getD (l.length / 2 - 1) 0 + s.getD (l.length / 2) 0) / 2

/-- Distinct cells in first-seen order. -/
def uniqCells (l : List Cell) : List Cell :=
  l.foldl (fun acc c => if c ∈ acc then acc else acc ++ [c]) []

/-- Sort order used by `Series.mode()` on its result (numbers numerically,
strings lexicographically; a mixed-type column would not survive pandas'
sort and never arises from the CSV model). -/
def cellLe : Cell → Cell → Bool
  | .num a, .num b => decide (a ≤ b)
  | .str a, .str b => decide (a ≤ b)
  | .num _, _ => true
  | _, _ => false

/-- `Series.mode()[0]`: the smallest among the most frequent non-missing
values; `none` when the column has no non-missing value (`mode()` is then
empty and `[0]` raises `KeyError`). -/
def modeCell (l : List Cell) : Option Cell :=
  let vs := nonMissing l
  match vs with
  | [] => none
  | _ =>
      let dis := uniqCells vs
      let maxCount := (dis.map (fun v => vs.count v)).foldl max 0
      (insertionSort cellLe (dis.filter (fun v => vs.count v = maxCount))).head?

/-- `fillna("N/A")` cell-wise. -/
def fillCellNA (c : Cell) : Cell := if c.isMissing then Cell.str "N/A" else c

/-- `fillna(v)` cell-wise. -/
def fillCellWith (v : Cell) (c : Cell) : Cell := if c.isMissing then v else c

/-- `dropna()`: keep the rows with no missing cell. -/
def dropnaRows (rows : List (List Cell)) : List (List Cell) :=
  rows.filter (fun r => r.all (fun c => !c.isMissing))

/-- The `missing_strategy` selector of `fill_missing`. -/
inductive FillMethod where
  | fillNA | fillMean | fillMedian | fillMode | dropRows
deriving DecidableEq, Repr

/-- One iteration of the `fill_missing` column loop.  A column without
missing cells is untouched; otherwise the strategy branch runs:
`Drop Rows` drops every row with any missing cell, the mean/median
branches require numeric dtype (and filling with the `NaN` mean of an
all-missing column changes nothing), and `Fill by most common` evaluates
`mode()[0]`, which raises (`none`) on an all-missing column. -/
def fillStep (m : FillMethod) (df : DF) (i : Nat) : Option DF :=
  let col := getCol df i
  if 0 < countMissing col then
    match m with
    | .dropRows => some { df with rows := dropnaRows df.rows }
    | .fillNA => some (setColCW df i fillCellNA)
    | .fillMean =>
        if isNumericCol col then
          match numValues col with
          | [] => some df
          | _ => some (setColCW df i (fillCellWith (Cell.num (meanQ (numValues col)))))
        else some df
    | .fillMedian =>
        if isNumericCol col then
          match numValues col with
          | [] => some df
          | _ => some (setColCW df i (fillCellWith (Cell.num (medianQ (numValues col)))))
        else some df
    | .fillMode =>
        match modeCell col with
        | some v => some (setColCW df i (fillCellWith v))
        | none => none
  else some df

/-- The `for col in df_copy.columns` loop, threading the mutated frame. -/
def fillLoop (m : FillMethod) : DF → List Nat → Option DF
  | df, [] => some df
  | df, i :: is =>
      match fillStep m df i with
      | none => none
      | some e => fillLoop m e is

/-- `fill_missing(df, method)` from `app_v2.py`. -/
def fill_missing (df : DF) (m : FillMethod) : Option DF :=
  fillLoop m df (List.range df.headers.length)

/-- `drop_duplicates()` keeping first occurrences, order preserving. -/
def dedupAux : List (List Cell) → List (List Cell) → List (List Cell)
  | [], _ => []
  | r :: rs, seen => if r ∈ seen then dedupAux rs seen else r :: dedupAux rs (r :: seen)

/-- `df.drop_duplicates(inplace=True)`. -/
def dropDuplicates (df : DF) : DF := { df with rows := dedupAux df.rows [] }

/-- `c.strip().lower().replace(" ", "_")` — one header. -/
def standardizeName (s : String) : String := pyReplaceChar (pyLower (pyStrip s)) ' ' '_'

/-- `df.columns = [c.strip().lower().replace(" ", "_") for c in df.columns]`. -/
def standardizeCols (df : DF) : DF := { df with headers := df.headers.map standardizeName }

/-- `normalize_text` cell-wise: `astype(str).str.strip().str.lower().str.title()`. -/
def normTextCell (c : Cell) : Cell := Cell.str (pyTitle (pyLower (pyStrip (pyStr c))))

/-- One column of the normalize-text dispatch: only object (non-numeric)
columns are selected, and `normalize_text` leaves email-named columns
unchanged. -/
def normalizeTextStep (df : DF) (i : Nat) : DF :=
  if isNumericCol (getCol df i) then df
  else if isEmailName (df.headers.getD i "") then df
  else setColCW df i normTextCell

/-- The normalize-text pipeline stage. -/
def normalizeTextDF (df : DF) : DF :=
  (List.range df.headers.length).foldl normalizeTextStep df

/-- One column of the fix-dates dispatch: `if "date" in col.lower()`. -/
def fixDatesStep (df : DF) (i : Nat) : DF :=
  if isDateName (df.headers.getD i "") then setColCW df i parseDateCell else df

/-- The fix-dates pipeline stage (`standardize_dates` per date-named column). -/
def fixDatesDF (df : DF) : DF :=
  (List.range df.headers.length).foldl fixDatesStep df

/-- One column of the validate-emails dispatch: `if "email" in col.lower()`. -/
def validateEmailsStep (df : DF) (i : Nat) : DF :=
  if isEmailName (df.headers.getD i "") then setColCW df i validateEmailCell else df

/-- The validate-emails pipeline stage. -/
def validateEmailsDF (df : DF) : DF :=
  (List.range df.headers.length).foldl validateEmailsStep df

/-- `fuzzy_standardize` as a cell-wise map: the canonical mapping is built
from the column once, then applied to each stripped, stringified cell. -/
def fuzzyCellMap (col : List Cell) (cutoff : ℚ) : Cell → Cell :=
  let mp := buildFuzzyMap (uniquesFS (col.map (fun c => pyStrip (pyStr c)))) cutoff
  fun c => Cell.str ((mp.lookup (pyStrip (pyStr c))).getD (pyStrip (pyStr c)))

/-- One column of the fuzzy dispatch: object columns only, cutoff `0.85`. -/
def fuzzyStep (df : DF) (i : Nat) : DF :=
  if isNumericCol (getCol df i) then df
  else setColCW df i (fuzzyCellMap (getCol df i) (17 / 20))

/-- The fuzzy-standardize pipeline stage. -/
def fuzzyDF (df : DF) : DF :=
  (List.range df.headers.length).foldl fuzzyStep df

/-- The `|z| > t` test, squared to stay in the rationals: for `0 ≤ t` and
positive variance, `|x − μ|/σ > t ↔ (x − μ)² > t²·σ²`; for a negative
threshold every numeric cell trips it; a missing cell compares as `NaN`
and never trips it. -/
def anomFlag (mu varQ t : ℚ) : Cell → Bool
  | .num x => if 0 ≤ t then decide (t ^ 2 * varQ < (x - mu) ^ 2) else true
  | _ => false

/-- `(mean, sample variance)` of a column (pandas `ddof=1`; statistics
skip `NaN`).  For fewer than two values the rational arithmetic yields a
zero variance and the column is skipped, matching the no-flag behaviour
of a `NaN` standard deviation. -/
def colMeanVar (col : List Cell) : ℚ × ℚ :=
  let vs := numValues col
  let n : ℚ := vs.length
  let mu := vs.sum / n
  (mu, (vs.map (fun x => (x - mu) ^ 2)).sum / (n - 1))

/-- `detect_anomalies(df, threshold)` from `app_v2.py`: for each numeric
column with nonzero standard deviation, the rows whose z-score magnitude
exceeds the threshold, annotated with the column name and offending
value, concatenated column by column. -/
def detectAnomalies (df : DF) (t : ℚ) : List (List Cell × String × Cell) :=
  (List.range df.headers.length).foldl (fun acc i =>
    let col := getCol df i
    if isNumericCol col then
      let p := colMeanVar col
      if p.2 = 0 then acc
      else
        acc ++ (df.rows.filter (fun r => anomFlag p.1 p.2 t (r.getD i Cell.missing))).map
          (fun r => (r, df.headers.getD i "", r.getD i Cell.missing))
    else acc) []

/-- The run-button configuration of `app_v2.py`. -/
structure Config where
  fillMethod : FillMethod
  doDuplicates : Bool
  doStandardizeCols : Bool
  doNormalizeText : Bool
  doFixDates : Bool
  doValidateEmails : Bool
  doFuzzy : Bool
  doAnomaly : Bool
deriving DecidableEq, Repr

/-- The `Run Cleaning` pipeline of `app_v2.py`: fill missing, then the
toggled steps in source order; `none` models the uncaught `KeyError` of
`Fill by most common` on an all-missing column. -/
def clean (df : DF) (cfg : Config) : Option (DF × List (List Cell × String × Cell)) :=
  match fill_missing df cfg.fillMethod with
  | none => none
  | some d1 =>
      let d2 := if cfg.doDuplicates then dropDuplicates d1 else d1
      let d3 := if cfg.doStandardizeCols then standardizeCols d2 else d2
      let d4 := if cfg.doNormalizeText then normalizeTextDF d3 else d3
      let d5 := if cfg.doFixDates then fixDatesDF d4 else d4
      let d6 := if cfg.doValidateEmails then validateEmailsDF d5 else d5
      let d7 := if cfg.doFuzzy then fuzzyDF d6 else d6
      some (d7, if cfg.doAnomaly then detectAnomalies d7 3 else [])

/-- `rows_after` of a completed run. -/
def rowsAfter (df : DF) (cfg : Config) : Option Nat :=
  (clean df cfg).map (fun r => r.1.rows.length)

/-! ## The `Fill by most common` branch of `sprint3.py`

Unlike `app_v2.py`, this branch computes `mode(dropna=True)` and fills
only `if not mode.empty`, so an all-missing column is left unmodified and
the loop continues with the remaining columns. -/

/-- One column of sprint3's fill-by-most-common loop. -/
def fillModeSprint3Step (df : DF) (i : Nat) : DF :=
  match modeCell (getCol df i) with
  | some v => setColCW df i (fillCellWith v)
  | none => df

/-- sprint3's `Fill by most common` over all columns. -/
def fillModeSprint3 (df : DF) : DF :=
  (List.range df.headers.length).foldl fillModeSprint3Step df

/-! ## An object-heap model of the run (for the no-mutation property)

Python variables hold references into a heap of DataFrame objects;
`.copy()` allocates a fresh object at the end of the heap, and the
in-place operations of the pipeline (`inplace=True`, column assignment,
`df.columns = ...`) overwrite the object a reference points to.  The
cumulative in-place column writes inside `fill_missing` all target its
freshly allocated `df_copy` and are summarised as one write of the
resulting value. -/

/-- Dereference (an out-of-range reference yields a dummy empty frame). -/
def heapGet (h : List DF) (r : Nat) : DF := h.getD r ⟨[], []⟩

/-- The `Run Cleaning` pipeline over an explicit heap: returns the final
heap, the reference held by `df_cleaned`, and the anomalies value; `none`
models the uncaught `KeyError` escaping `fill_missing`. -/
def cleanHeap (h0 : List DF) (df : Nat) (cfg : Config) :
    Option (List DF × Nat × List (List Cell × String × Cell)) :=
  let h1 := h0 ++ [heapGet h0 df]
  let c0 := h0.length
  let h2 := h1 ++ [heapGet h1 c0]
  let c1 := h1.length
  match fill_missing (heapGet h2 c1) cfg.fillMethod with
  | none => none
  | some filled =>
      let h3 := h2.set c1 filled
      let h4 := if cfg.doDuplicates then h3.set c1 (dropDuplicates (heapGet h3 c1)) else h3
      let h5 := if cfg.doStandardizeCols then h4.set c1 (standardizeCols (heapGet h4 c1)) else h4
      let h6 := if cfg.doNormalizeText then h5.set c1 (normalizeTextDF (heapGet h5 c1)) else h5
      let h7 := if cfg.doFixDates then h6.set c1 (fixDatesDF (heapGet h6 c1)) else h6
      let h8 := if cfg.doValidateEmails then h7.set c1 (validateEmailsDF (heapGet h7 c1)) else h7
      let h9 := if cfg.doFuzzy then h8.set c1 (fuzzyDF (heapGet h8 c1)) else h8
      some (h9, c1, if cfg.doAnomaly then detectAnomalies (heapGet h9 c1) 3 else [])

/-! ## Concrete frames and configurations used by the claims -/

/-- The single numeric column `[1, 2, 3, 4, 100]` of the anomaly claim. -/
def dfOutlier : DF :=
  ⟨["v"], [[Cell.num 1], [Cell.num 2], [Cell.num 3], [Cell.num 4], [Cell.num 100]]⟩

/-- The constant numeric column `[5, 5, 5, 5]` of the anomaly claim. -/
def dfConst : DF := ⟨["v"], [[Cell.num 5], [Cell.num 5], [Cell.num 5], [Cell.num 5]]⟩

/-- Two rows that differ only in letter case. -/
def dfCase : DF := ⟨["name"], [[Cell.str "a"], [Cell.str "A"]]⟩

/-- Dedup and text normalization on, everything else off. -/
def cfgCase : Config :=
  ⟨FillMethod.fillNA, true, false, true, false, false, false, false⟩

/-- Column `x` all-missing, column `y` with one missing cell. -/
def dfAllMissing : DF :=
  ⟨["x", "y"], [[Cell.missing, Cell.num 1], [Cell.missing, Cell.missing]]⟩

/-- `Fill by most common`, all toggles off. -/
def cfgMode : Config :=
  ⟨FillMethod.fillMode, false, false, false, false, false, false, false⟩

/-- Two columns with a missing cell in the second. -/
def dfTwoCol : DF :=
  ⟨["a", "b"], [[Cell.num 1, Cell.missing], [Cell.num 2, Cell.str "x"]]⟩

/-- `Drop Rows`, all toggles off. -/
def cfgDrop : Config :=
  ⟨FillMethod.dropRows, false, false, false, false, false, false, false⟩

/-- A date-named column next to an ordinary column. -/
def dfDates : DF :=
  ⟨["Birth Date", "name"],
   [[Cell.str "01/02/23", Cell.str "x"], [Cell.str "not-a-date", Cell.str "y"]]⟩

/-- Three rows, two of them equal. -/
def dfDup : DF := ⟨["name"], [[Cell.str "a"], [Cell.str "a"], [Cell.str "b"]]⟩

/-- Dedup on, every other toggle off. -/
def cfgDedupOnly : Config :=
  ⟨FillMethod.fillNA, true, false, false, false, false, false, false⟩

/-- A text column with a missing cell. -/
def dfText : DF := ⟨["city"], [[Cell.str "new york"], [Cell.missing]]⟩

/-- No cell of the frame is missing. -/
def NoMissing (df : DF) : Prop := ∀ r ∈ df.rows, ∀ c ∈ r, c.isMissing = false

/-! # Lemmas -/

/-! ## List and column basics -/

theorem getD_set_self {α : Type} (l : List α) (i : Nat) (v d : α) (h : i < l.length) :
    (l.set i v).getD i d = v := by
  simp [List.getD_eq_getElem?_getD, List.getElem?_set_self h]

theorem getD_set_ne {α : Type} (l : List α) {i j : Nat} (v d : α) (h : i ≠ j) :
    (l.set i v).getD j d = l.getD j d := by
  simp [List.getD_eq_getElem?_getD, List.getElem?_set_ne h]

theorem getD_mem {α : Type} (l : List α) (i : Nat) (d : α) (h : i < l.length) :
    l.getD i d ∈ l := by
  rw [List.getD_eq_getElem?_getD, List.getElem?_eq_getElem h]
  exact List.getElem_mem h

theorem setColCW_headers (df : DF) (i : Nat) (g : Cell → Cell) :
    (setColCW df i g).headers = df.headers := rfl

theorem setColCW_rows_length (df : DF) (i : Nat) (g : Cell → Cell) :
    (setColCW df i g).rows.length = df.rows.length := by
  simp [setColCW]

theorem rect_setColCW {df : DF} (i : Nat) (g : Cell → Cell) (h : Rect df) :
    Rect (setColCW df i g) := by
  intro r hr
  simp only [setColCW, List.mem_map] at hr
  obtain ⟨r0, hr0, rfl⟩ := hr
  simp [List.length_set, h r0 hr0, setColCW_headers]

theorem getCol_setColCW_ne (df : DF) {i j : Nat} (g : Cell → Cell) (h : j ≠ i) :
    getCol (setColCW df j g) i = getCol df i := by
  simp only [getCol, setColCW, List.map_map]
  exact List.map_congr_left fun r _ => getD_set_ne r _ _ h

theorem getCol_setColCW_self {df : DF} {i : Nat} (g : Cell → Cell)
    (hrect : Rect df) (hi : i < df.headers.length) :
    getCol (setColCW df i g) i = (getCol df i).map g := by
  simp only [getCol, setColCW, List.map_map]
  exact List.map_congr_left fun r hr =>
    getD_set_self r i _ _ (by rw [hrect r hr]; exact hi)

theorem countMissing_eq_zero {l : List Cell} :
    countMissing l = 0 ↔ ∀ c ∈ l, c.isMissing = false := by
  simp [countMissing, List.countP_eq_zero]

theorem noMissing_countMissing {df : DF} (hnm : NoMissing df) (hrect : Rect df)
    {i : Nat} (hi : i < df.headers.length) : countMissing (getCol df i) = 0 := by
  rw [countMissing_eq_zero]
  intro c hc
  simp only [getCol, List.mem_map] at hc
  obtain ⟨r, hr, rfl⟩ := hc
  exact hnm r hr _ (getD_mem r i _ (by rw [hrect r hr]; exact hi))

/-! ## Deduplication -/

theorem dedupAux_sublist : ∀ (rows seen : List (List Cell)), (dedupAux rows seen).Sublist rows := by
  intro rows
  induction rows with
  | nil => intro seen; simp [dedupAux]
  | cons r rs ih =>
      intro seen
      simp only [dedupAux]
      split
      · exact (ih seen).cons r
      · exact (ih (r :: seen)).cons₂ r

theorem dedupAux_mem : ∀ (rows seen : List (List Cell)) (r : List Cell),
    r ∈ rows → r ∈ seen ∨ r ∈ dedupAux rows seen := by
  intro rows
  induction rows with
  | nil => intro seen r hr; cases hr
  | cons r0 rs ih =>
      intro seen r hr
      simp only [dedupAux]
      rcases List.mem_cons.mp hr with rfl | hmem
      · split
        · exact Or.inl (by assumption)
        · exact Or.inr (List.mem_cons_self _ _)
      · split
        · exact ih seen r hmem
        · rcases ih (r0 :: seen) r hmem with hs | hd
          · rcases List.mem_cons.mp hs with rfl | hs2
            · exact Or.inr (List.mem_cons_self _ _)
            · exact Or.inl hs2
          · exact Or.inr (List.mem_cons_of_mem _ hd)

theorem dedupAux_nodup : ∀ (rows seen : List (List Cell)),
    (dedupAux rows seen).Nodup ∧ ∀ r ∈ dedupAux rows seen, r ∉ seen := by
  intro rows
  induction rows with
  | nil => intro seen; simp [dedupAux]
  | cons r0 rs ih =>
      intro seen
      simp only [dedupAux]
      split
      · exact ⟨(ih seen).1, (ih seen).2⟩
      · refine ⟨List.nodup_cons.mpr ⟨fun hd => ?_, (ih (r0 :: seen)).1⟩, ?_⟩
        · exact (ih (r0 :: seen)).2 r0 hd (List.mem_cons_self _ _)
        · intro r hr
          rcases List.mem_cons.mp hr with rfl | hd
          · assumption
          · exact fun hs => (ih (r0 :: seen)).2 r hd (List.mem_cons_of_mem _ hs)

theorem dedupAux_eq_self : ∀ (rows seen : List (List Cell)),
    rows.Nodup → (∀ r ∈ rows, r ∉ seen) → dedupAux rows seen = rows := by
  intro rows
  induction rows with
  | nil => intro seen _ _; rfl
  | cons r0 rs ih =>
      intro seen hnd hout
      simp only [dedupAux]
      rw [if_neg (hout r0 (List.mem_cons_self _ _))]
      congr 1
      refine ih (r0 :: seen) (List.nodup_cons.mp hnd).2 fun r hr => ?_
      intro hs
      rcases List.mem_cons.mp hs with rfl | hs2
      · exact (List.nodup_cons.mp hnd).1 hr
      · exact hout r (List.mem_cons_of_mem _ hr) hs2

theorem dropDuplicates_nodup (df : DF) : (dropDuplicates df).rows.Nodup :=
  (dedupAux_nodup df.rows []).1

theorem dropDuplicates_of_nodup {df : DF} (h : df.rows.Nodup) : dropDuplicates df = df := by
  simp only [dropDuplicates]
  rw [dedupAux_eq_self df.rows [] h (by simp)]

/-! ## Index-range splitting for the column folds -/

theorem range_split {n i : Nat} (h : i < n) :
    List.range n = List.range' 0 i ++ i :: List.range' (i + 1) (n - i - 1) := by
  have h1 := List.range'_append 0 i (n - i) 1
  simp at h1
  rw [List.range_eq_range', show n = n - i + i by omega, ← h1,
    show n - i = (n - i - 1) + 1 by omega, List.range'_succ]
  have h2 : n - i - 1 + 1 + i - i - 1 = n - i - 1 := by omega
  rw [h2]

theorem not_mem_range'_left {i : Nat} : i ∉ List.range' 0 i := by
  rw [List.mem_range']
  rintro ⟨k, hk, rfl⟩
  omega

theorem not_mem_range'_right {i m : Nat} : i ∉ List.range' (i + 1) m := by
  rw [List.mem_range']
  rintro ⟨k, hk, h⟩
  omega

/-! ## Generic lemmas about the per-column pipeline folds -/

theorem foldSteps_headers {step : DF → Nat → DF}
    (hH : ∀ d j, (step d j).headers = d.headers) :
    ∀ (L : List Nat) (d : DF), (L.foldl step d).headers = d.headers := by
  intro L
  induction L with
  | nil => intro d; rfl
  | cons j L ih => intro d; rw [List.foldl_cons, ih, hH]

theorem foldSteps_rect {step : DF → Nat → DF}
    (hR : ∀ d j, Rect d → Rect (step d j)) :
    ∀ (L : List Nat) (d : DF), Rect d → Rect (L.foldl step d) := by
  intro L
  induction L with
  | nil => intro d h; exact h
  | cons j L ih => intro d h; rw [List.foldl_cons]; exact ih _ (hR d j h)

theorem foldSteps_rows_length {step : DF → Nat → DF}
    (hL : ∀ d j, (step d j).rows.length = d.rows.length) :
    ∀ (L : List Nat) (d : DF), (L.foldl step d).rows.length = d.rows.length := by
  intro L
  induction L with
  | nil => intro d; rfl
  | cons j L ih => intro d; rw [List.foldl_cons, ih, hL]

theorem foldSteps_getCol_notMem {step : DF → Nat → DF}
    (hO : ∀ d j i, j ≠ i → getCol (step d j) i = getCol d i) :
    ∀ (L : List Nat) (d : DF) (i : Nat), i ∉ L →
      getCol (L.foldl step d) i = getCol d i := by
  intro L
  induction L with
  | nil => intro d i _; rfl
  | cons j L ih =>
      intro d i hmem
      rw [List.foldl_cons, ih _ i (fun h => hmem (List.mem_cons_of_mem _ h)),
        hO d j i (fun h => hmem (h ▸ List.mem_cons_self _ _))]

/-- Effect of a whole per-column fold on one column: if each step touches
only its own column and acts on column `i` as `F(header i, column i)`,
then the fold over all column indices acts on column `i` the same way. -/
theorem foldRange_getCol {step : DF → Nat → DF}
    (hH : ∀ d j, (step d j).headers = d.headers)
    (hO : ∀ d j i, j ≠ i → getCol (step d j) i = getCol d i)
    (hR : ∀ d j, Rect d → Rect (step d j))
    {i : Nat} (F : String → List Cell → List Cell)
    (hF : ∀ d, Rect d → i < d.headers.length →
      getCol (step d i) i = F (d.headers.getD i "") (getCol d i))
    {df : DF} (hrect : Rect df) (hi : i < df.headers.length) :
    getCol ((List.range df.headers.length).foldl step df) i =
      F (df.headers.getD i "") (getCol df i) := by
  rw [range_split hi, List.foldl_append, List.foldl_cons]
  have hhd : (List.foldl step df (List.range' 0 i)).headers = df.headers :=
    foldSteps_headers hH _ df
  have hcol : getCol (List.foldl step df (List.range' 0 i)) i = getCol df i :=
    foldSteps_getCol_notMem hO _ df i not_mem_range'_left
  have hre : Rect (List.foldl step df (List.range' 0 i)) := foldSteps_rect hR _ df hrect
  rw [foldSteps_getCol_notMem hO _ _ i not_mem_range'_right,
    hF _ hre (by rw [hhd]; exact hi), hhd, hcol]

/-! ## Per-stage instantiations -/

theorem fixDatesStep_headers (d : DF) (j : Nat) : (fixDatesStep d j).headers = d.headers := by
  simp only [fixDatesStep]; split <;> rfl

theorem fixDatesStep_getCol_ne (d : DF) (j i : Nat) (h : j ≠ i) :
    getCol (fixDatesStep d j) i = getCol d i := by
  simp only [fixDatesStep]; split
  · exact getCol_setColCW_ne d _ h
  · rfl

theorem fixDatesStep_rect (d : DF) (j : Nat) (h : Rect d) : Rect (fixDatesStep d j) := by
  simp only [fixDatesStep]; split
  · exact rect_setColCW j _ h
  · exact h

theorem fixDatesDF_getCol {df : DF} {i : Nat} (hrect : Rect df) (hi : i < df.headers.length) :
    getCol (fixDatesDF df) i =
      if isDateName (df.headers.getD i "") then (getCol df i).map parseDateCell
      else getCol df i := by
  refine foldRange_getCol fixDatesStep_headers fixDatesStep_getCol_ne fixDatesStep_rect
    (fun h col => if isDateName h then col.map parseDateCell else col) ?_ hrect hi
  intro d hre hlt
  simp only [fixDatesStep]
  split
  · exact getCol_setColCW_self _ hre hlt
  · rfl

theorem validateEmailsStep_headers (d : DF) (j : Nat) :
    (validateEmailsStep d j).headers = d.headers := by
  simp only [validateEmailsStep]; split <;> rfl

theorem validateEmailsStep_getCol_ne (d : DF) (j i : Nat) (h : j ≠ i) :
    getCol (validateEmailsStep d j) i = getCol d i := by
  simp only [validateEmailsStep]; split
  · exact getCol_setColCW_ne d _ h
  · rfl

theorem validateEmailsStep_rect (d : DF) (j : Nat) (h : Rect d) :
    Rect (validateEmailsStep d j) := by
  simp only [validateEmailsStep]; split
  · exact rect_setColCW j _ h
  · exact h

theorem validateEmailsDF_getCol {df : DF} {i : Nat} (hrect : Rect df)
    (hi : i < df.headers.length) :
    getCol (validateEmailsDF df) i =
      if isEmailName (df.headers.getD i "") then (getCol df i).map validateEmailCell
      else getCol df i := by
  refine foldRange_getCol validateEmailsStep_headers validateEmailsStep_getCol_ne
    validateEmailsStep_rect
    (fun h col => if isEmailName h then col.map validateEmailCell else col) ?_ hrect hi
  intro d hre hlt
  simp only [validateEmailsStep]
  split
  · exact getCol_setColCW_self _ hre hlt
  · rfl

theorem normalizeTextStep_headers (d : DF) (j : Nat) :
    (normalizeTextStep d j).headers = d.headers := by
  simp only [normalizeTextStep]; split
  · rfl
  · split <;> rfl

theorem normalizeTextStep_getCol_ne (d : DF) (j i : Nat) (h : j ≠ i) :
    getCol (normalizeTextStep d j) i = getCol d i := by
  simp only [normalizeTextStep]; split
  · rfl
  · split
    · rfl
    · exact getCol_setColCW_ne d _ h

theorem normalizeTextStep_rect (d : DF) (j : Nat) (h : Rect d) :
    Rect (normalizeTextStep d j) := by
  simp only [normalizeTextStep]; split
  · exact h
  · split
    · exact h
    · exact rect_setColCW j _ h

theorem normalizeTextDF_getCol {df : DF} {i : Nat} (hrect : Rect df)
    (hi : i < df.headers.length) :
    getCol (normalizeTextDF df) i =
      if isNumericCol (getCol df i) then getCol df i
      else if isEmailName (df.headers.getD i "") then getCol df i
      else (getCol df i).map normTextCell := by
  refine foldRange_getCol normalizeTextStep_headers normalizeTextStep_getCol_ne
    normalizeTextStep_rect
    (fun h col =>
      if isNumericCol col then col
      else if isEmailName h then col else col.map normTextCell) ?_ hrect hi
  intro d hre hlt
  simp only [normalizeTextStep]
  split
  · rfl
  · split
    · rfl
    · exact getCol_setColCW_self _ hre hlt

theorem fuzzyStep_headers (d : DF) (j : Nat) : (fuzzyStep d j).headers = d.headers := by
  simp only [fuzzyStep]; split <;> rfl

theorem fuzzyStep_getCol_ne (d : DF) (j i : Nat) (h : j ≠ i) :
    getCol (fuzzyStep d j) i = getCol d i := by
  simp only [fuzzyStep]; split
  · rfl
  · exact getCol_setColCW_ne d _ h

theorem fuzzyStep_rect (d : DF) (j : Nat) (h : Rect d) : Rect (fuzzyStep d j) := by
  simp only [fuzzyStep]; split
  · exact h
  · exact rect_setColCW j _ h

theorem fuzzyDF_getCol {df : DF} {i : Nat} (hrect : Rect df) (hi : i < df.headers.length) :
    getCol (fuzzyDF df) i =
      if isNumericCol (getCol df i) then getCol df i
      else (getCol df i).map (fuzzyCellMap (getCol df i) (17 / 20)) := by
  refine foldRange_getCol fuzzyStep_headers fuzzyStep_getCol_ne fuzzyStep_rect
    (fun _ col => if isNumericCol col then col else col.map (fuzzyCellMap col (17 / 20)))
    ?_ hrect hi
  intro d hre hlt
  simp only [fuzzyStep]
  split
  · rfl
  · exact getCol_setColCW_self _ hre hlt

/-! ## Row counts of the toggled stages -/

theorem fixDatesStep_rows_length (d : DF) (j : Nat) :
    (fixDatesStep d j).rows.length = d.rows.length := by
  simp only [fixDatesStep]; split
  · exact setColCW_rows_length d j _
  · rfl

theorem validateEmailsStep_rows_length (d : DF) (j : Nat) :
    (validateEmailsStep d j).rows.length = d.rows.length := by
  simp only [validateEmailsStep]; split
  · exact setColCW_rows_length d j _
  · rfl

theorem normalizeTextStep_rows_length (d : DF) (j : Nat) :
    (normalizeTextStep d j).rows.length = d.rows.length := by
  simp only [normalizeTextStep]; split
  · rfl
  · split
    · rfl
    · exact setColCW_rows_length d j _

theorem fuzzyStep_rows_length (d : DF) (j : Nat) :
    (fuzzyStep d j).rows.length = d.rows.length := by
  simp only [fuzzyStep]; split
  · rfl
  · exact setColCW_rows_length d j _

theorem fixDatesDF_rows_length (df : DF) : (fixDatesDF df).rows.length = df.rows.length :=
  foldSteps_rows_length fixDatesStep_rows_length _ df

theorem validateEmailsDF_rows_length (df : DF) :
    (validateEmailsDF df).rows.length = df.rows.length :=
  foldSteps_rows_length validateEmailsStep_rows_length _ df

theorem normalizeTextDF_rows_length (df : DF) :
    (normalizeTextDF df).rows.length = df.rows.length :=
  foldSteps_rows_length normalizeTextStep_rows_length _ df

theorem fuzzyDF_rows_length (df : DF) : (fuzzyDF df).rows.length = df.rows.length :=
  foldSteps_rows_length fuzzyStep_rows_length _ df

theorem standardizeCols_rows (df : DF) : (standardizeCols df).rows = df.rows := rfl

theorem dropDuplicates_rows_length_le (df : DF) :
    (dropDuplicates df).rows.length ≤ df.rows.length :=
  (dedupAux_sublist df.rows []).length_le

/-! ## What the prefix regex matcher accepts -/

theorem afterDotM_iff (l : List Char) :
    afterDotM l = true ↔ ∃ c cs, l = c :: cs ∧ c ≠ '@' := by
  cases l with
  | nil => simp [afterDotM]
  | cons c cs => simp [afterDotM]

theorem afterAt2M_iff : ∀ l : List Char,
    afterAt2M l = true ↔
      ∃ b rest, l = b ++ '.' :: rest ∧ (∀ x ∈ b, x ≠ '@') ∧ afterDotM rest = true := by
  intro l
  induction l with
  | nil =>
      simp only [afterAt2M]
      constructor
      · intro h; cases h
      · rintro ⟨b, rest, h, -, -⟩
        exact absurd h.symm (by simp)
  | cons c cs ih =>
      simp only [afterAt2M, Bool.or_eq_true, Bool.and_eq_true, decide_eq_true_eq]
      constructor
      · rintro (⟨rfl, hd⟩ | ⟨hc, ha⟩)
        · exact ⟨[], cs, rfl, by simp, hd⟩
        · obtain ⟨b, rest, hcs, hb, hd⟩ := ih.mp ha
          refine ⟨c :: b, rest, by rw [hcs]; rfl, ?_, hd⟩
          intro x hx
          rcases List.mem_cons.mp hx with rfl | hx2
          · exact hc
          · exact hb x hx2
      · rintro ⟨b, rest, heq, hb, hd⟩
        cases b with
        | nil =>
            simp only [List.nil_append, List.cons.injEq] at heq
            exact Or.inl ⟨heq.1, heq.2 ▸ hd⟩
        | cons b0 bs =>
            simp only [List.cons_append, List.cons.injEq] at heq
            right
            refine ⟨heq.1 ▸ hb b0 (List.mem_cons_self _ _), ?_⟩
            exact ih.mpr ⟨bs, rest, heq.2, fun x hx => hb x (List.mem_cons_of_mem _ hx), hd⟩

theorem afterAtM_iff (l : List Char) :
    afterAtM l = true ↔
      ∃ b rest, l = b ++ '.' :: rest ∧ b ≠ [] ∧ (∀ x ∈ b, x ≠ '@') ∧
        afterDotM rest = true := by
  cases l with
  | nil =>
      simp only [afterAtM]
      constructor
      · intro h; cases h
      · rintro ⟨b, rest, h, hne, -, -⟩
        cases b with
        | nil => exact (hne rfl).elim
        | cons b0 bs => exact absurd h.symm (by simp)
  | cons c cs =>
      simp only [afterAtM, Bool.and_eq_true, decide_eq_true_eq, afterAt2M_iff]
      constructor
      · rintro ⟨hc, b, rest, hcs, hb, hd⟩
        refine ⟨c :: b, rest, by rw [hcs]; rfl, by simp, ?_, hd⟩
        intro x hx
        rcases List.mem_cons.mp hx with rfl | hx2
        · exact hc
        · exact hb x hx2
      · rintro ⟨b, rest, heq, hne, hb, hd⟩
        cases b with
        | nil => exact absurd rfl hne
        | cons b0 bs =>
            simp only [List.cons_append, List.cons.injEq] at heq
            refine ⟨heq.1 ▸ hb b0 (List.mem_cons_self _ _),
              bs, rest, heq.2, fun x hx => hb x (List.mem_cons_of_mem _ hx), hd⟩

theorem emailMatch2M_iff : ∀ l : List Char,
    emailMatch2M l = true ↔
      ∃ a rest, l = a ++ '@' :: rest ∧ (∀ x ∈ a, x ≠ '@') ∧ afterAtM rest = true := by
  intro l
  induction l with
  | nil =>
      simp only [emailMatch2M]
      constructor
      · intro h; cases h
      · rintro ⟨a, rest, h, -, -⟩
        exact absurd h.symm (by simp)
  | cons c cs ih =>
      simp only [emailMatch2M, Bool.or_eq_true, Bool.and_eq_true, decide_eq_true_eq]
      constructor
      · rintro (⟨rfl, hd⟩ | ⟨hc, ha⟩)
        · exact ⟨[], cs, rfl, by simp, hd⟩
        · obtain ⟨a, rest, hcs, hb, hd⟩ := ih.mp ha
          refine ⟨c :: a, rest, by rw [hcs]; rfl, ?_, hd⟩
          intro x hx
          rcases List.mem_cons.mp hx with rfl | hx2
          · exact hc
          · exact hb x hx2
      · rintro ⟨a, rest, heq, hb, hd⟩
        cases a with
        | nil =>
            simp only [List.nil_append, List.cons.injEq] at heq
            exact Or.inl ⟨heq.1, heq.2 ▸ hd⟩
        | cons a0 as =>
            simp only [List.cons_append, List.cons.injEq] at heq
            right
            refine ⟨heq.1 ▸ hb a0 (List.mem_cons_self _ _), ?_⟩
            exact ih.mpr ⟨as, rest, heq.2, fun x hx => hb x (List.mem_cons_of_mem _ hx), hd⟩

theorem emailMatchM_iff (l : List Char) :
    emailMatchM l = true ↔
      ∃ a rest, l = a ++ '@' :: rest ∧ a ≠ [] ∧ (∀ x ∈ a, x ≠ '@') ∧
        afterAtM rest = true := by
  cases l with
  | nil =>
      simp only [emailMatchM]
      constructor
      · intro h; cases h
      · rintro ⟨a, rest, h, hne, -, -⟩
        cases a with
        | nil => exact (hne rfl).elim
        | cons a0 as => exact absurd h.symm (by simp)
  | cons c cs =>
      simp only [emailMatchM, Bool.and_eq_true, decide_eq_true_eq, emailMatch2M_iff]
      constructor
      · rintro ⟨hc, a, rest, hcs, hb, hd⟩
        refine ⟨c :: a, rest, by rw [hcs]; rfl, by simp, ?_, hd⟩
        intro x hx
        rcases List.mem_cons.mp hx with rfl | hx2
        · exact hc
        · exact hb x hx2
      · rintro ⟨a, rest, heq, hne, hb, hd⟩
        cases a with
        | nil => exact absurd rfl hne
        | cons a0 as =>
            simp only [List.cons_append, List.cons.injEq] at heq
            refine ⟨heq.1 ▸ hb a0 (List.mem_cons_self _ _),
              as, rest, heq.2, fun x hx => hb x (List.mem_cons_of_mem _ hx), hd⟩

/-! ## What `get_close_matches` selects -/

theorem bmFold_spec (v : String) (cutoff : ℚ) :
    ∀ (rest : List String) (acc : Option (String × ℚ)) (processed : List String),
      (acc = none → ∀ x ∈ processed, ratioQ x v < cutoff) →
      (∀ k r, acc = some (k, r) → r = ratioQ k v ∧ cutoff ≤ r ∧
        ∃ pre post, processed = pre ++ k :: post ∧
          (∀ x ∈ pre, ratioQ x v < r ∨ (ratioQ x v = r ∧ x < k)) ∧
          (∀ x ∈ post, ratioQ x v < r ∨ (ratioQ x v = r ∧ ¬ k < x))) →
      ((rest.foldl (bmStep v cutoff) acc = none →
          ∀ x ∈ processed ++ rest, ratioQ x v < cutoff) ∧
        (∀ k r, rest.foldl (bmStep v cutoff) acc = some (k, r) →
          r = ratioQ k v ∧ cutoff ≤ r ∧
          ∃ pre post, processed ++ rest = pre ++ k :: post ∧
            (∀ x ∈ pre, ratioQ x v < r ∨ (ratioQ x v = r ∧ x < k)) ∧
            (∀ x ∈ post, ratioQ x v < r ∨ (ratioQ x v = r ∧ ¬ k < x)))) := by
  intro rest
  induction rest with
  | nil =>
      intro acc processed h1 h2
      constructor
      · intro h0 x hx
        rw [List.append_nil] at hx
        exact h1 h0 x hx
      · intro k r hk
        rw [List.append_nil]
        exact h2 k r hk
  | cons k0 ks ih =>
      intro acc processed h1 h2
      rw [List.foldl_cons]
      have hassoc : processed ++ k0 :: ks = (processed ++ [k0]) ++ ks := by simp
      rw [hassoc]
      refine ih (bmStep v cutoff acc k0) (processed ++ [k0]) ?_ ?_
      · -- invariant for the `none` outcome of the step
        intro h0 x hx
        rcases List.mem_append.mp hx with hx1 | hx2
        · refine h1 ?_ x hx1
          by_contra hne
          obtain ⟨p, hp⟩ := Option.ne_none_iff_exists'.mp hne
          simp only [bmStep, hp] at h0
          split at h0
          · split at h0 <;> cases h0
          · cases h0
        · have hxk : x = k0 := by cases List.mem_singleton.mp hx2; rfl
          subst hxk
          by_contra hge
          push_neg at hge
          simp only [bmStep, if_pos hge] at h0
          cases acc with
          | none => cases h0
          | some p => simp only at h0; split at h0 <;> cases h0
      · -- invariant for the `some` outcome of the step
        intro k r hk
        simp only [bmStep] at hk
        by_cases hcut : cutoff ≤ ratioQ k0 v
        · rw [if_pos hcut] at hk
          cases acc with
          | none =>
              simp only [Option.some.injEq, Prod.mk.injEq] at hk
              obtain ⟨rfl, rfl⟩ := hk
              refine ⟨rfl, hcut, processed, [], by simp, ?_, by simp⟩
              intro x hx
              exact Or.inl (lt_of_lt_of_le (h1 rfl x hx) hcut)
          | some p =>
              simp only at hk
              split at hk
              · -- a strictly larger `(ratio, key)` pair: the new key wins
                rename_i hcond
                simp only [Option.some.injEq, Prod.mk.injEq] at hk
                obtain ⟨rfl, rfl⟩ := hk
                obtain ⟨hpr, hpc, pre, post, hsplit, hpre, hpost⟩ := h2 p.1 p.2 rfl
                refine ⟨rfl, hcut, processed, [], by simp, ?_, by simp⟩
                intro x hx
                rw [hsplit] at hx
                rcases hcond with hlt | ⟨heq, hkey⟩
                · -- the new ratio is strictly larger than the old best's
                  refine Or.inl ?_
                  rcases List.mem_append.mp hx with hx1 | hx2
                  · rcases hpre x hx1 with h3 | ⟨h3, -⟩
                    · exact lt_trans h3 hlt
                    · exact lt_of_le_of_lt (le_of_eq h3) hlt
                  · rcases List.mem_cons.mp hx2 with rfl | hx3
                    · exact lt_of_le_of_lt (le_of_eq hpr.symm) hlt
                    · rcases hpost x hx3 with h3 | ⟨h3, -⟩
                      · exact lt_trans h3 hlt
                      · exact lt_of_le_of_lt (le_of_eq h3) hlt
                · -- equal ratios, lexicographically larger key
                  rcases List.mem_append.mp hx with hx1 | hx2
                  · rcases hpre x hx1 with h3 | ⟨h3, h4⟩
                    · exact Or.inl (lt_of_lt_of_le h3 (le_of_eq heq))
                    · exact Or.inr ⟨h3.trans heq, lt_trans h4 hkey⟩
                  · rcases List.mem_cons.mp hx2 with rfl | hx3
                    · exact Or.inr ⟨hpr.symm.trans heq, hkey⟩
                    · rcases hpost x hx3 with h3 | ⟨h3, h4⟩
                      · exact Or.inl (lt_of_lt_of_le h3 (le_of_eq heq))
                      · exact Or.inr ⟨h3.trans heq,
                          lt_of_le_of_lt (le_of_not_lt h4) hkey⟩
              · -- not larger: the old best stays, `k0` joins `post`
                rename_i hncond
                push_neg at hncond
                have hp : p = (k, r) := Option.some.injEq _ _ ▸ hk
                obtain ⟨hpr, hpc, pre, post, hsplit, hpre, hpost⟩ :=
                  h2 k r (by rw [hp])
                refine ⟨hpr, hpc, pre, post ++ [k0], by rw [hsplit]; simp, hpre, ?_⟩
                intro x hx
                rcases List.mem_append.mp hx with hx1 | hx2
                · exact hpost x hx1
                · cases List.mem_singleton.mp hx2
                  rw [hp] at hncond
                  rcases lt_or_eq_of_le hncond.1 with h3 | h3
                  · exact Or.inl h3
                  · exact Or.inr ⟨h3, hncond.2 h3.symm⟩
        · rw [if_neg hcut] at hk
          obtain ⟨hpr, hpc, pre, post, hsplit, hpre, hpost⟩ := h2 k r hk
          refine ⟨hpr, hpc, pre, post ++ [k0], by rw [hsplit]; simp, hpre, ?_⟩
          intro x hx
          rcases List.mem_append.mp hx with hx1 | hx2
          · exact hpost x hx1
          · cases List.mem_singleton.mp hx2
            exact Or.inl (lt_of_lt_of_le (lt_of_not_le hcut) hpc)

theorem bestMatch_none_iff (v : String) (keys : List String) (cutoff : ℚ) :
    bestMatch v keys cutoff = none ↔ ∀ k ∈ keys, ratioQ k v < cutoff := by
  have hs := bmFold_spec v cutoff keys none []
    (fun _ x hx => absurd hx (List.not_mem_nil x))
    (fun k r h => by cases h)
  constructor
  · intro h
    simp only [bestMatch, Option.map_eq_none'] at h
    intro k hk
    exact hs.1 h k (by simpa using hk)
  · intro hall
    simp only [bestMatch, Option.map_eq_none']
    cases hfold : keys.foldl (bmStep v cutoff) none with
    | none => rfl
    | some p =>
        obtain ⟨hpr, hpc, pre, post, hsplit, -, -⟩ := hs.2 p.1 p.2 (by rw [hfold])
        simp only [List.nil_append] at hsplit
        have hmem : p.1 ∈ keys := by rw [hsplit]; simp
        rw [hpr] at hpc
        exact absurd hpc (not_le.mpr (hall p.1 hmem))

theorem bestMatch_some_spec {v : String} {keys : List String} {cutoff : ℚ} {k : String}
    (h : bestMatch v keys cutoff = some k) :
    cutoff ≤ ratioQ k v ∧
      ∃ pre post, keys = pre ++ k :: post ∧
        (∀ x ∈ pre, ratioQ x v < ratioQ k v ∨ (ratioQ x v = ratioQ k v ∧ x < k)) ∧
        (∀ x ∈ post, ratioQ x v < ratioQ k v ∨ (ratioQ x v = ratioQ k v ∧ ¬ k < x)) := by
  have hs := bmFold_spec v cutoff keys none []
    (fun _ x hx => absurd hx (List.not_mem_nil x))
    (fun k r h => by cases h)
  simp only [bestMatch, Option.map_eq_some'] at h
  obtain ⟨p, hfold, rfl⟩ := h
  obtain ⟨hpr, hpc, pre, post, hsplit, hpre, hpost⟩ := hs.2 p.1 p.2 (by rw [hfold])
  simp only [List.nil_append] at hsplit
  rw [hpr] at hpc hpre hpost
  exact ⟨hpc, pre, post, hsplit, hpre, hpost⟩

/-! ## Cell-level facts about the filling strategies -/

theorem fillCellNA_not_missing (c : Cell) : (fillCellNA c).isMissing = false := by
  cases c <;> simp [fillCellNA, Cell.isMissing]

theorem fillCellWith_not_missing {v : Cell} (hv : v.isMissing = false) (c : Cell) :
    (fillCellWith v c).isMissing = false := by
  cases c with
  | missing => simpa [fillCellWith, Cell.isMissing] using hv
  | num q => simp [fillCellWith, Cell.isMissing]
  | str s => simp [fillCellWith, Cell.isMissing]

theorem uniqCells_subset : ∀ (l acc : List Cell) (x : Cell),
    x ∈ l.foldl (fun acc c => if c ∈ acc then acc else acc ++ [c]) acc →
    x ∈ acc ∨ x ∈ l := by
  intro l
  induction l with
  | nil => intro acc x hx; exact Or.inl hx
  | cons c cs ih =>
      intro acc x hx
      rw [List.foldl_cons] at hx
      rcases ih _ x hx with hacc | hmem
      · split at hacc
        · exact Or.inl hacc
        · rcases List.mem_append.mp hacc with h1 | h2
          · exact Or.inl h1
          · cases List.mem_singleton.mp h2
            exact Or.inr (List.mem_cons_self _ _)
      · exact Or.inr (List.mem_cons_of_mem _ hmem)

theorem mem_insertSorted {α : Type} (le : α → α → Bool) (a x : α) :
    ∀ l : List α, x ∈ insertSorted le a l → x = a ∨ x ∈ l := by
  intro l
  induction l with
  | nil =>
      intro hx
      simp only [insertSorted] at hx
      exact Or.inl (List.mem_singleton.mp hx)
  | cons y ys ih =>
      intro hx
      simp only [insertSorted] at hx
      split at hx
      · rcases List.mem_cons.mp hx with rfl | hx2
        · exact Or.inl rfl
        · exact Or.inr hx2
      · rcases List.mem_cons.mp hx with rfl | hx2
        · exact Or.inr (List.mem_cons_self _ _)
        · rcases ih hx2 with h1 | h2
          · exact Or.inl h1
          · exact Or.inr (List.mem_cons_of_mem _ h2)

theorem mem_insertionSort {α : Type} (le : α → α → Bool) (x : α) :
    ∀ l : List α, x ∈ insertionSort le l → x ∈ l := by
  intro l
  induction l with
  | nil => intro hx; cases hx
  | cons y ys ih =>
      intro hx
      simp only [insertionSort] at hx
      rcases mem_insertSorted le y x _ hx with rfl | h2
      · exact List.mem_cons_self _ _
      · exact List.mem_cons_of_mem _ (ih h2)

theorem modeCell_not_missing {l : List Cell} {v : Cell} (h : modeCell l = some v) :
    v.isMissing = false := by
  simp only [modeCell] at h
  split at h
  · cases h
  · have hv := List.mem_of_mem_head? h
    have hv := mem_insertionSort _ _ _ hv
    have hv2 := List.mem_of_mem_filter hv
    rcases uniqCells_subset _ [] v (by simpa [uniqCells] using hv2) with h0 | hmem
    · cases h0
    · have := List.of_mem_filter hmem
      simpa using this

theorem nonMissing_not_missing {l : List Cell} {c : Cell} (h : c ∈ nonMissing l) :
    c.isMissing = false := by
  have := List.of_mem_filter h
  simpa using this

/-! ## The shape of one `fill_missing` iteration -/

theorem fillStep_shape {m : FillMethod} {df : DF} {i : Nat} {e : DF}
    (h : fillStep m df i = some e) :
    e = df ∨ (m = FillMethod.dropRows ∧ e = ⟨df.headers, dropnaRows df.rows⟩) ∨
      ∃ g, e = setColCW df i g := by
  cases m with
  | dropRows =>
      simp only [fillStep] at h
      split at h
      · injection h with h
        exact Or.inr (Or.inl ⟨rfl, h.symm⟩)
      · injection h with h
        exact Or.inl h.symm
  | fillNA =>
      simp only [fillStep] at h
      split at h
      · injection h with h
        exact Or.inr (Or.inr ⟨fillCellNA, h.symm⟩)
      · injection h with h
        exact Or.inl h.symm
  | fillMean =>
      simp only [fillStep] at h
      split at h
      · split at h
        · split at h
          · injection h with h
            exact Or.inl h.symm
          · injection h with h
            exact Or.inr (Or.inr ⟨_, h.symm⟩)
        · injection h with h
          exact Or.inl h.symm
      · injection h with h
        exact Or.inl h.symm
  | fillMedian =>
      simp only [fillStep] at h
      split at h
      · split at h
        · split at h
          · injection h with h
            exact Or.inl h.symm
          · injection h with h
            exact Or.inr (Or.inr ⟨_, h.symm⟩)
        · injection h with h
          exact Or.inl h.symm
      · injection h with h
        exact Or.inl h.symm
  | fillMode =>
      simp only [fillStep] at h
      split at h
      · split at h
        · injection h with h
          exact Or.inr (Or.inr ⟨_, h.symm⟩)
        · cases h
      · injection h with h
        exact Or.inl h.symm

theorem rect_rows_subset (df e : DF) (hh : e.headers = df.headers)
    (hsub : ∀ r ∈ e.rows, r ∈ df.rows) (h : Rect df) : Rect e := by
  intro r hr
  rw [hh]
  exact h r (hsub r hr)

theorem fillStep_headers {m : FillMethod} {df : DF} {i : Nat} {e : DF}
    (h : fillStep m df i = some e) : e.headers = df.headers := by
  rcases fillStep_shape h with rfl | ⟨-, rfl⟩ | ⟨g, rfl⟩
  · rfl
  · rfl
  · rfl

theorem fillStep_rect {m : FillMethod} {df : DF} {i : Nat} {e : DF}
    (h : fillStep m df i = some e) (hrect : Rect df) : Rect e := by
  rcases fillStep_shape h with rfl | ⟨-, rfl⟩ | ⟨g, rfl⟩
  · exact hrect
  · exact rect_rows_subset df ⟨df.headers, dropnaRows df.rows⟩ rfl
      (fun r hr => (List.mem_filter.mp hr).1) hrect
  · exact rect_setColCW i g hrect

theorem fillStep_rows_le {m : FillMethod} {df : DF} {i : Nat} {e : DF}
    (h : fillStep m df i = some e) : e.rows.length ≤ df.rows.length := by
  rcases fillStep_shape h with rfl | ⟨-, rfl⟩ | ⟨g, rfl⟩
  · exact le_refl _
  · exact List.length_filter_le _ _
  · exact le_of_eq (setColCW_rows_length df i g)

theorem fillStep_rows_eq_nondrop {m : FillMethod} {df : DF} {i : Nat} {e : DF}
    (hm : m ≠ FillMethod.dropRows) (h : fillStep m df i = some e) :
    e.rows.length = df.rows.length := by
  rcases fillStep_shape h with rfl | ⟨hd, rfl⟩ | ⟨g, rfl⟩
  · rfl
  · exact absurd hd hm
  · exact setColCW_rows_length df i g

/-! ## The `fill_missing` loop -/

theorem fillLoop_headers {m : FillMethod} :
    ∀ (L : List Nat) (df e : DF), fillLoop m df L = some e → e.headers = df.headers := by
  intro L
  induction L with
  | nil => intro df e h; injection h with h; rw [h]
  | cons i is ih =>
      intro df e h
      simp only [fillLoop] at h
      split at h
      · cases h
      · rename_i e1 h1
        rw [ih _ _ h, fillStep_headers h1]

theorem fillLoop_rect {m : FillMethod} :
    ∀ (L : List Nat) (df e : DF), Rect df → fillLoop m df L = some e → Rect e := by
  intro L
  induction L with
  | nil => intro df e hr h; injection h with h; rw [← h]; exact hr
  | cons i is ih =>
      intro df e hr h
      simp only [fillLoop] at h
      split at h
      · cases h
      · rename_i e1 h1
        exact ih _ _ (fillStep_rect h1 hr) h

theorem fillLoop_rows_le {m : FillMethod} :
    ∀ (L : List Nat) (df e : DF), fillLoop m df L = some e →
      e.rows.length ≤ df.rows.length := by
  intro L
  induction L with
  | nil => intro df e h; injection h with h; rw [h]
  | cons i is ih =>
      intro df e h
      simp only [fillLoop] at h
      split at h
      · cases h
      · rename_i e1 h1
        exact le_trans (ih _ _ h) (fillStep_rows_le h1)

theorem fillLoop_rows_eq_nondrop {m : FillMethod} (hm : m ≠ FillMethod.dropRows) :
    ∀ (L : List Nat) (df e : DF), fillLoop m df L = some e →
      e.rows.length = df.rows.length := by
  intro L
  induction L with
  | nil => intro df e h; injection h with h; rw [h]
  | cons i is ih =>
      intro df e h
      simp only [fillLoop] at h
      split at h
      · cases h
      · rename_i e1 h1
        rw [ih _ _ h, fillStep_rows_eq_nondrop hm h1]

theorem fillLoop_noop {m : FillMethod} :
    ∀ (L : List Nat) (df : DF), (∀ i ∈ L, fillStep m df i = some df) →
      fillLoop m df L = some df := by
  intro L
  induction L with
  | nil => intro df _; rfl
  | cons i is ih =>
      intro df hall
      simp only [fillLoop]
      rw [hall i (List.mem_cons_self _ _)]
      exact ih df (fun j hj => hall j (List.mem_cons_of_mem _ hj))

theorem fillLoop_pres {m : FillMethod} (P : DF → Nat → Prop)
    (hpres : ∀ df i e j, Rect df → i < df.headers.length →
      fillStep m df i = some e → P df j → P e j) :
    ∀ (L : List Nat) (df e : DF) (j : Nat), Rect df →
      (∀ i ∈ L, i < df.headers.length) →
      fillLoop m df L = some e → P df j → P e j := by
  intro L
  induction L with
  | nil =>
      intro df e j _ _ h hp
      injection h with h
      rw [← h]
      exact hp
  | cons i is ih =>
      intro df e j hr hb h hp
      simp only [fillLoop] at h
      split at h
      · cases h
      · rename_i e1 h1
        refine ih e1 e j (fillStep_rect h1 hr) ?_ h
          (hpres df i e1 j hr (hb i (List.mem_cons_self _ _)) h1 hp)
        intro i' hi'
        rw [fillStep_headers h1]
        exact hb i' (List.mem_cons_of_mem _ hi')

theorem fillLoop_establishes {m : FillMethod} (P : DF → Nat → Prop)
    (hestab : ∀ df i e, Rect df → i < df.headers.length →
      fillStep m df i = some e → P e i)
    (hpres : ∀ df i e j, Rect df → i < df.headers.length →
      fillStep m df i = some e → P df j → P e j) :
    ∀ (L : List Nat) (df e : DF), Rect df → (∀ i ∈ L, i < df.headers.length) →
      fillLoop m df L = some e → ∀ i ∈ L, P e i := by
  intro L
  induction L with
  | nil => intro df e _ _ _ i hi; cases hi
  | cons i0 is ih =>
      intro df e hr hb h i hi
      simp only [fillLoop] at h
      split at h
      · cases h
      · rename_i e1 h1
        have hr1 := fillStep_rect h1 hr
        have hb1 : ∀ i' ∈ is, i' < e1.headers.length := by
          intro i' hi'
          rw [fillStep_headers h1]
          exact hb i' (List.mem_cons_of_mem _ hi')
        rcases List.mem_cons.mp hi with rfl | hmem
        · exact fillLoop_pres P hpres is e1 e i hr1 hb1 h
            (hestab df i e1 hr (hb i (List.mem_cons_self _ _)) h1)
        · exact ih e1 e hr1 hb1 h i hmem

/-! ## The column-stability invariants of `fill_missing` -/

theorem countMissing_dropna {df : DF} (hrect : Rect df) {i : Nat}
    (hi : i < df.headers.length) :
    countMissing (getCol ⟨df.headers, dropnaRows df.rows⟩ i) = 0 := by
  rw [countMissing_eq_zero]
  intro c hc
  simp only [getCol, List.mem_map] at hc
  obtain ⟨r, hr, rfl⟩ := hc
  have hmem := List.mem_filter.mp hr
  have hall := List.all_eq_true.mp hmem.2
  have hlen : i < r.length := by rw [hrect r hmem.1]; exact hi
  have := hall _ (getD_mem r i Cell.missing hlen)
  simpa using this

theorem fillStep_noop_of_zero {m : FillMethod} {df : DF} {i : Nat}
    (hp : countMissing (getCol df i) = 0) : fillStep m df i = some df := by
  simp only [fillStep, hp]
  norm_num

theorem fillStep_fillNA_estab {df : DF} {i : Nat} {e : DF} (hrect : Rect df)
    (hi : i < df.headers.length) (h : fillStep FillMethod.fillNA df i = some e) :
    countMissing (getCol e i) = 0 := by
  simp only [fillStep] at h
  split at h
  · injection h with h
    subst h
    rw [getCol_setColCW_self _ hrect hi, countMissing_eq_zero]
    intro c hc
    obtain ⟨c0, -, rfl⟩ := List.mem_map.mp hc
    exact fillCellNA_not_missing c0
  · injection h with h
    subst h
    rename_i hguard
    omega

theorem fillStep_fillMode_estab {df : DF} {i : Nat} {e : DF} (hrect : Rect df)
    (hi : i < df.headers.length) (h : fillStep FillMethod.fillMode df i = some e) :
    countMissing (getCol e i) = 0 := by
  simp only [fillStep] at h
  split at h
  · split at h
    · rename_i v hv
      injection h with h
      subst h
      rw [getCol_setColCW_self _ hrect hi, countMissing_eq_zero]
      intro c hc
      obtain ⟨c0, -, rfl⟩ := List.mem_map.mp hc
      exact fillCellWith_not_missing (modeCell_not_missing hv) c0
    · cases h
  · injection h with h
    subst h
    rename_i hguard
    omega

theorem fillStep_dropRows_estab {df : DF} {i : Nat} {e : DF} (hrect : Rect df)
    (hi : i < df.headers.length) (h : fillStep FillMethod.dropRows df i = some e) :
    countMissing (getCol e i) = 0 := by
  simp only [fillStep] at h
  split at h
  · injection h with h
    subst h
    exact countMissing_dropna hrect hi
  · injection h with h
    subst h
    rename_i hguard
    omega

theorem fillStep_pres_zero {m : FillMethod} {df : DF} {i : Nat} {e : DF} {j : Nat}
    (h : fillStep m df i = some e) (hp : countMissing (getCol df j) = 0) :
    countMissing (getCol e j) = 0 := by
  by_cases hji : i = j
  · subst hji
    rw [fillStep_noop_of_zero hp] at h
    injection h with h
    rw [← h]
    exact hp
  · rcases fillStep_shape h with rfl | ⟨-, rfl⟩ | ⟨g, rfl⟩
    · exact hp
    · have hsub : (getCol ⟨df.headers, dropnaRows df.rows⟩ j).Sublist (getCol df j) :=
        (List.filter_sublist df.rows).map _
      have := hsub.countP_le (fun c => c.isMissing)
      simp only [countMissing] at hp ⊢
      omega
    · rw [getCol_setColCW_ne df g hji]
      exact hp

theorem isNumericCol_eq_false_iff {l : List Cell} :
    isNumericCol l = false ↔ ∃ c ∈ l, (c.isNum || c.isMissing) = false := by
  simp only [isNumericCol]
  rw [← Bool.not_eq_true, List.all_eq_true]
  push_neg
  simp [Bool.not_eq_true]

theorem countMissing_map_fill_zero {l : List Cell} {v : Cell} (hv : v.isMissing = false) :
    countMissing (l.map (fillCellWith v)) = 0 := by
  rw [countMissing_eq_zero]
  intro c hc
  obtain ⟨c0, -, rfl⟩ := List.mem_map.mp hc
  exact fillCellWith_not_missing hv c0

theorem fillStep_mean_estab {df : DF} {i : Nat} {e : DF} (hrect : Rect df)
    (hi : i < df.headers.length) (h : fillStep FillMethod.fillMean df i = some e) :
    0 < countMissing (getCol e i) →
      isNumericCol (getCol e i) = false ∨ numValues (getCol e i) = [] := by
  simp only [fillStep] at h
  split at h
  · split at h
    · split at h
      · injection h with h
        subst h
        intro _
        right
        assumption
      · injection h with h
        subst h
        intro hpos
        exfalso
        rw [getCol_setColCW_self _ hrect hi,
          countMissing_map_fill_zero (by simp [Cell.isMissing])] at hpos
        exact Nat.lt_irrefl 0 hpos
    · injection h with h
      subst h
      intro _
      left
      rw [← Bool.not_eq_true]
      assumption
  · injection h with h
    subst h
    intro hpos
    rename_i hguard
    exact absurd hpos hguard

theorem fillStep_median_estab {df : DF} {i : Nat} {e : DF} (hrect : Rect df)
    (hi : i < df.headers.length) (h : fillStep FillMethod.fillMedian df i = some e) :
    0 < countMissing (getCol e i) →
      isNumericCol (getCol e i) = false ∨ numValues (getCol e i) = [] := by
  simp only [fillStep] at h
  split at h
  · split at h
    · split at h
      · injection h with h
        subst h
        intro _
        right
        assumption
      · injection h with h
        subst h
        intro hpos
        exfalso
        rw [getCol_setColCW_self _ hrect hi,
          countMissing_map_fill_zero (by simp [Cell.isMissing])] at hpos
        exact Nat.lt_irrefl 0 hpos
    · injection h with h
      subst h
      intro _
      left
      rw [← Bool.not_eq_true]
      assumption
  · injection h with h
    subst h
    intro hpos
    rename_i hguard
    exact absurd hpos hguard

theorem fillStep_mean_pres {df : DF} {i : Nat} {e : DF} {j : Nat} (hrect : Rect df)
    (hi : i < df.headers.length) (h : fillStep FillMethod.fillMean df i = some e)
    (hp : 0 < countMissing (getCol df j) →
      isNumericCol (getCol df j) = false ∨ numValues (getCol df j) = []) :
    0 < countMissing (getCol e j) →
      isNumericCol (getCol e j) = false ∨ numValues (getCol e j) = [] := by
  by_cases hji : i = j
  · subst hji
    exact fillStep_mean_estab hrect hi h
  · rcases fillStep_shape h with rfl | ⟨hm, -⟩ | ⟨g, rfl⟩
    · exact hp
    · cases hm
    · rw [getCol_setColCW_ne df g hji]
      exact hp

theorem fillStep_median_pres {df : DF} {i : Nat} {e : DF} {j : Nat} (hrect : Rect df)
    (hi : i < df.headers.length) (h : fillStep FillMethod.fillMedian df i = some e)
    (hp : 0 < countMissing (getCol df j) →
      isNumericCol (getCol df j) = false ∨ numValues (getCol df j) = []) :
    0 < countMissing (getCol e j) →
      isNumericCol (getCol e j) = false ∨ numValues (getCol e j) = [] := by
  by_cases hji : i = j
  · subst hji
    exact fillStep_median_estab hrect hi h
  · rcases fillStep_shape h with rfl | ⟨hm, -⟩ | ⟨g, rfl⟩
    · exact hp
    · cases hm
    · rw [getCol_setColCW_ne df g hji]
      exact hp

/-! ## What `fill_missing` guarantees about its output columns -/

theorem fill_missing_zero_cols {m : FillMethod} {df e : DF} (hrect : Rect df)
    (hm : m = FillMethod.fillNA ∨ m = FillMethod.fillMode ∨ m = FillMethod.dropRows)
    (h : fill_missing df m = some e) :
    ∀ i < df.headers.length, countMissing (getCol e i) = 0 := by
  intro i hi
  have hb : ∀ i' ∈ List.range df.headers.length, i' < df.headers.length := by
    intro i' hi'
    exact List.mem_range.mp hi'
  have hmem : i ∈ List.range df.headers.length := List.mem_range.mpr hi
  rcases hm with rfl | rfl | rfl
  · exact fillLoop_establishes (fun d j => countMissing (getCol d j) = 0)
      (fun d j e hr hj hs => fillStep_fillNA_estab hr hj hs)
      (fun d j e j' hr hj hs hp => fillStep_pres_zero hs hp)
      _ df e hrect hb h i hmem
  · exact fillLoop_establishes (fun d j => countMissing (getCol d j) = 0)
      (fun d j e hr hj hs => fillStep_fillMode_estab hr hj hs)
      (fun d j e j' hr hj hs hp => fillStep_pres_zero hs hp)
      _ df e hrect hb h i hmem
  · exact fillLoop_establishes (fun d j => countMissing (getCol d j) = 0)
      (fun d j e hr hj hs => fillStep_dropRows_estab hr hj hs)
      (fun d j e j' hr hj hs hp => fillStep_pres_zero hs hp)
      _ df e hrect hb h i hmem

theorem fill_missing_mm_cols {m : FillMethod} {df e : DF} (hrect : Rect df)
    (hm : m = FillMethod.fillMean ∨ m = FillMethod.fillMedian)
    (h : fill_missing df m = some e) :
    ∀ i < df.headers.length, 0 < countMissing (getCol e i) →
      isNumericCol (getCol e i) = false ∨ numValues (getCol e i) = [] := by
  intro i hi
  have hb : ∀ i' ∈ List.range df.headers.length, i' < df.headers.length := by
    intro i' hi'
    exact List.mem_range.mp hi'
  have hmem : i ∈ List.range df.headers.length := List.mem_range.mpr hi
  rcases hm with rfl | rfl
  · exact fillLoop_establishes
      (fun d j => 0 < countMissing (getCol d j) →
        isNumericCol (getCol d j) = false ∨ numValues (getCol d j) = [])
      (fun d j e hr hj hs => fillStep_mean_estab hr hj hs)
      (fun d j e j' hr hj hs hp => fillStep_mean_pres hr hj hs hp)
      _ df e hrect hb h i hmem
  · exact fillLoop_establishes
      (fun d j => 0 < countMissing (getCol d j) →
        isNumericCol (getCol d j) = false ∨ numValues (getCol d j) = [])
      (fun d j e hr hj hs => fillStep_median_estab hr hj hs)
      (fun d j e j' hr hj hs hp => fillStep_median_pres hr hj hs hp)
      _ df e hrect hb h i hmem

/-! ## Transfer of the column invariants through dedup and renaming -/

theorem getCol_dropDuplicates_sublist (df : DF) (i : Nat) :
    (getCol (dropDuplicates df) i).Sublist (getCol df i) :=
  (dedupAux_sublist df.rows []).map _

theorem countMissing_dropDuplicates_zero {df : DF} {i : Nat}
    (hp : countMissing (getCol df i) = 0) :
    countMissing (getCol (dropDuplicates df) i) = 0 := by
  have := (getCol_dropDuplicates_sublist df i).countP_le (fun c => c.isMissing)
  simp only [countMissing] at hp ⊢
  omega

theorem mm_dropDuplicates {df : DF} {i : Nat}
    (hp : 0 < countMissing (getCol df i) →
      isNumericCol (getCol df i) = false ∨ numValues (getCol df i) = []) :
    0 < countMissing (getCol (dropDuplicates df) i) →
      isNumericCol (getCol (dropDuplicates df) i) = false ∨
        numValues (getCol (dropDuplicates df) i) = [] := by
  intro hpos
  have hposdf : 0 < countMissing (getCol df i) := by
    simp only [countMissing, List.countP_pos_iff] at hpos ⊢
    obtain ⟨c, hc, hcm⟩ := hpos
    exact ⟨c, (getCol_dropDuplicates_sublist df i).subset hc, hcm⟩
  rcases hp hposdf with hnum | hnv
  · left
    rw [isNumericCol_eq_false_iff] at hnum ⊢
    obtain ⟨c, hc, hcp⟩ := hnum
    simp only [getCol, List.mem_map] at hc
    obtain ⟨r, hr, rfl⟩ := hc
    refine ⟨r.getD i Cell.missing, ?_, hcp⟩
    simp only [getCol, List.mem_map, dropDuplicates]
    refine ⟨r, ?_, rfl⟩
    rcases dedupAux_mem df.rows [] r hr with h0 | hd
    · cases h0
    · exact hd
  · right
    have hsub : (numValues (getCol (dropDuplicates df) i)).Sublist
        (numValues (getCol df i)) :=
      (getCol_dropDuplicates_sublist df i).filterMap _
    rw [hnv] at hsub
    exact List.sublist_nil.mp hsub

theorem getCol_standardizeCols (df : DF) (i : Nat) :
    getCol (standardizeCols df) i = getCol df i := rfl

theorem standardizeCols_headers_length (df : DF) :
    (standardizeCols df).headers.length = df.headers.length := by
  simp [standardizeCols]

theorem rect_standardizeCols {df : DF} (h : Rect df) : Rect (standardizeCols df) := by
  intro r hr
  rw [standardizeCols_headers_length]
  exact h r hr

theorem rect_dropDuplicates {df : DF} (h : Rect df) : Rect (dropDuplicates df) :=
  rect_rows_subset df (dropDuplicates df) rfl
    (fun r hr => (dedupAux_sublist df.rows []).subset hr) h

theorem dropDuplicates_headers (df : DF) : (dropDuplicates df).headers = df.headers := rfl

/-! ## When a second `fill_missing` is the identity -/

theorem fillStep_mean_noop {df : DF} {i : Nat}
    (hp : 0 < countMissing (getCol df i) →
      isNumericCol (getCol df i) = false ∨ numValues (getCol df i) = []) :
    fillStep FillMethod.fillMean df i = some df := by
  simp only [fillStep]
  by_cases hpos : 0 < countMissing (getCol df i)
  · rw [if_pos hpos]
    rcases hp hpos with hnum | hnv
    · rw [if_neg (by simp [hnum])]
    · by_cases hb : isNumericCol (getCol df i) = true
      · rw [if_pos hb, hnv]
      · rw [if_neg hb]
  · rw [if_neg hpos]

theorem fillStep_median_noop {df : DF} {i : Nat}
    (hp : 0 < countMissing (getCol df i) →
      isNumericCol (getCol df i) = false ∨ numValues (getCol df i) = []) :
    fillStep FillMethod.fillMedian df i = some df := by
  simp only [fillStep]
  by_cases hpos : 0 < countMissing (getCol df i)
  · rw [if_pos hpos]
    rcases hp hpos with hnum | hnv
    · rw [if_neg (by simp [hnum])]
    · by_cases hb : isNumericCol (getCol df i) = true
      · rw [if_pos hb, hnv]
      · rw [if_neg hb]
  · rw [if_neg hpos]

theorem fill_missing_noop_zero {m : FillMethod} {d : DF}
    (hall : ∀ i < d.headers.length, countMissing (getCol d i) = 0) :
    fill_missing d m = some d :=
  fillLoop_noop _ _ (fun i hi => fillStep_noop_of_zero (hall i (List.mem_range.mp hi)))

theorem fill_missing_noop_mean {d : DF}
    (hall : ∀ i < d.headers.length, 0 < countMissing (getCol d i) →
      isNumericCol (getCol d i) = false ∨ numValues (getCol d i) = []) :
    fill_missing d FillMethod.fillMean = some d :=
  fillLoop_noop _ _ (fun i hi => fillStep_mean_noop (hall i (List.mem_range.mp hi)))

theorem fill_missing_noop_median {d : DF}
    (hall : ∀ i < d.headers.length, 0 < countMissing (getCol d i) →
      isNumericCol (getCol d i) = false ∨ numValues (getCol d i) = []) :
    fill_missing d FillMethod.fillMedian = some d :=
  fillLoop_noop _ _ (fun i hi => fillStep_median_noop (hall i (List.mem_range.mp hi)))

/-- The prefix regex `[^@]+@[^@]+\.[^@]+` accepts exactly the strings of
the shape `a ++ "@" ++ b ++ "." ++ c :: anything` with `a`, `b` nonempty
and `@`-free and `c ≠ '@'` — the tail after one post-dot character is
unconstrained, which is what start-only anchoring means. -/
theorem emailOk_iff (s : String) :
    emailOk s = true ↔
      ∃ a b c cs, s.data = a ++ '@' :: (b ++ '.' :: c :: cs) ∧
        a ≠ [] ∧ (∀ x ∈ a, x ≠ '@') ∧ b ≠ [] ∧ (∀ x ∈ b, x ≠ '@') ∧ c ≠ '@' := by
  rw [emailOk, emailMatchM_iff]
  constructor
  · rintro ⟨a, rest, heq, hane, ha, hrest⟩
    obtain ⟨b, rest2, hre, hbne, hb, hd⟩ := (afterAtM_iff rest).mp hrest
    obtain ⟨c, cs, hrc, hc⟩ := (afterDotM_iff rest2).mp hd
    exact ⟨a, b, c, cs, by rw [heq, hre, hrc], hane, ha, hbne, hb, hc⟩
  · rintro ⟨a, b, c, cs, heq, hane, ha, hbne, hb, hc⟩
    refine ⟨a, b ++ '.' :: c :: cs, heq, hane, ha, ?_⟩
    exact (afterAtM_iff _).mpr ⟨b, c :: cs, rfl, hbne, hb,
      (afterDotM_iff _).mpr ⟨c, cs, rfl, hc⟩⟩

/-! ## Stability of an already-cleaned frame -/

/-- The output of a run with dedup on and the four value-changing steps
off is *stable*: a second `fill_missing` returns it unchanged, its rows
are duplicate-free, and it is rectangular. -/
theorem clean_output_stable {df : DF} {cfg : Config} {d1 : DF}
    {a1 : List (List Cell × String × Cell)}
    (hrect : Rect df)
    (hdup : cfg.doDuplicates = true)
    (hnt : cfg.doNormalizeText = false) (hfd : cfg.doFixDates = false)
    (hve : cfg.doValidateEmails = false) (hfz : cfg.doFuzzy = false)
    (h1 : clean df cfg = some (d1, a1)) :
    fill_missing d1 cfg.fillMethod = some d1 ∧ d1.rows.Nodup ∧ Rect d1 := by
  simp only [clean] at h1
  cases hfill : fill_missing df cfg.fillMethod with
  | none => rw [hfill] at h1; cases h1
  | some f1 =>
      rw [hfill] at h1
      simp only [hdup, hnt, hfd, hve, hfz, eq_self_iff_true, Bool.false_eq_true,
        if_true, if_false] at h1
      have hfill' : fillLoop cfg.fillMethod df (List.range df.headers.length) = some f1 := hfill
      have hrf1 : Rect f1 := fillLoop_rect _ df f1 hrect hfill'
      have hhf1 : f1.headers = df.headers := fillLoop_headers _ df f1 hfill'
      rw [Option.some.injEq, Prod.mk.injEq] at h1
      obtain ⟨hd1, -⟩ := h1
      cases hsc : cfg.doStandardizeCols with
      | false =>
          rw [hsc] at hd1
          simp only [Bool.false_eq_true, if_false] at hd1
          subst hd1
          refine ⟨?_, dropDuplicates_nodup f1, rect_dropDuplicates hrf1⟩
          have hbound : ∀ i, i < (dropDuplicates f1).headers.length →
              i < df.headers.length := by
            intro i hi
            rw [dropDuplicates_headers, hhf1] at hi
            exact hi
          cases hm : cfg.fillMethod with
          | fillNA =>
              refine fill_missing_noop_zero fun i hi => countMissing_dropDuplicates_zero ?_
              exact fill_missing_zero_cols hrect (Or.inl rfl) (hm ▸ hfill) i (hbound i hi)
          | fillMode =>
              refine fill_missing_noop_zero fun i hi => countMissing_dropDuplicates_zero ?_
              exact fill_missing_zero_cols hrect (Or.inr (Or.inl rfl)) (hm ▸ hfill) i
                (hbound i hi)
          | dropRows =>
              refine fill_missing_noop_zero fun i hi => countMissing_dropDuplicates_zero ?_
              exact fill_missing_zero_cols hrect (Or.inr (Or.inr rfl)) (hm ▸ hfill) i
                (hbound i hi)
          | fillMean =>
              refine fill_missing_noop_mean fun i hi => mm_dropDuplicates ?_
              exact fill_missing_mm_cols hrect (Or.inl rfl) (hm ▸ hfill) i (hbound i hi)
          | fillMedian =>
              refine fill_missing_noop_median fun i hi => mm_dropDuplicates ?_
              exact fill_missing_mm_cols hrect (Or.inr rfl) (hm ▸ hfill) i (hbound i hi)
      | true =>
          rw [hsc] at hd1
          simp only [if_true] at hd1
          subst hd1
          refine ⟨?_, dropDuplicates_nodup f1, rect_standardizeCols (rect_dropDuplicates hrf1)⟩
          have hbound : ∀ i,
              i < (standardizeCols (dropDuplicates f1)).headers.length →
              i < df.headers.length := by
            intro i hi
            rw [standardizeCols_headers_length, dropDuplicates_headers, hhf1] at hi
            exact hi
          have hcols : ∀ i, getCol (standardizeCols (dropDuplicates f1)) i =
              getCol (dropDuplicates f1) i := fun i => rfl
          cases hm : cfg.fillMethod with
          | fillNA =>
              refine fill_missing_noop_zero fun i hi => ?_
              rw [hcols]
              exact countMissing_dropDuplicates_zero
                (fill_missing_zero_cols hrect (Or.inl rfl) (hm ▸ hfill) i (hbound i hi))
          | fillMode =>
              refine fill_missing_noop_zero fun i hi => ?_
              rw [hcols]
              exact countMissing_dropDuplicates_zero
                (fill_missing_zero_cols hrect (Or.inr (Or.inl rfl)) (hm ▸ hfill) i
                  (hbound i hi))
          | dropRows =>
              refine fill_missing_noop_zero fun i hi => ?_
              rw [hcols]
              exact countMissing_dropDuplicates_zero
                (fill_missing_zero_cols hrect (Or.inr (Or.inr rfl)) (hm ▸ hfill) i
                  (hbound i hi))
          | fillMean =>
              refine fill_missing_noop_mean fun i hi => ?_
              rw [hcols]
              exact mm_dropDuplicates
                (fill_missing_mm_cols hrect (Or.inl rfl) (hm ▸ hfill) i (hbound i hi))
          | fillMedian =>
              refine fill_missing_noop_median fun i hi => ?_
              rw [hcols]
              exact mm_dropDuplicates
                (fill_missing_mm_cols hrect (Or.inr rfl) (hm ▸ hfill) i (hbound i hi))

/-! # Claim theorems -/

/-- C1 (counterexample): the claim says a value is left unchanged *iff*
it matches the anchored pattern `^[^@]+@[^@]+\.[^@]+$`, and in particular
that any string with a second `@` outside that exact shape becomes
`invalid@example.com`.  The code's `re.match` has no `$`: the string
`"a@b.com@x"` fails the anchored pattern yet is left unchanged. -/
theorem c1_counterexample :
    validateEmailCell (Cell.str "a@b.com@x") = Cell.str "a@b.com@x" ∧
    emailOkAnchored "a@b.com@x" = false ∧
    Cell.str "a@b.com@x" ≠ Cell.str "invalid@example.com" := by
  decide

/-- C1 (amended): the email-validation step leaves a cell unchanged iff a
*prefix* of `str(x)` matches `[^@]+@[^@]+\.[^@]+` (`re.match` anchors at
the start only): exactly the strings that start with a nonempty `@`-free
run, an `@`, a nonempty `@`-free run, a dot and one more non-`@`
character, with an arbitrary tail.  Every other value — including every
non-string and missing cell, whose stringifications contain no such
prefix — is replaced by the literal `invalid@example.com`; `"a@b.com"`
is unchanged, and a string with a second `@` after a valid prefix is
also unchanged. -/
theorem c1_amended :
    (∀ c : Cell, validateEmailCell c =
      if emailOk (pyStr c) then c else Cell.str "invalid@example.com") ∧
    (∀ s : String, emailOk s = true ↔
      ∃ a b c cs, s.data = a ++ '@' :: (b ++ '.' :: c :: cs) ∧
        a ≠ [] ∧ (∀ x ∈ a, x ≠ '@') ∧ b ≠ [] ∧ (∀ x ∈ b, x ≠ '@') ∧ c ≠ '@') ∧
    validateEmailCell (Cell.str "a@b.com") = Cell.str "a@b.com" ∧
    validateEmailCell (Cell.str "a@b.com@x") = Cell.str "a@b.com@x" ∧
    validateEmailCell (Cell.str "a@b") = Cell.str "invalid@example.com" ∧
    validateEmailCell (Cell.num 42) = Cell.str "invalid@example.com" ∧
    validateEmailCell Cell.missing = Cell.str "invalid@example.com" :=
  ⟨fun _ => rfl, emailOk_iff, by decide, by decide, by decide, by decide, by decide⟩

/-- C1 (witness): the characterization of the amended claim applied to
the concrete string `"a@b.com"`. -/
theorem c1_witness :
    emailOk "a@b.com" = true ↔
      ∃ a b c cs, ("a@b.com").data = a ++ '@' :: (b ++ '.' :: c :: cs) ∧
        a ≠ [] ∧ (∀ x ∈ a, x ≠ '@') ∧ b ≠ [] ∧ (∀ x ∈ b, x ≠ '@') ∧ c ≠ '@' :=
  c1_amended.2.1 "a@b.com"

/-- C2 (counterexample): the claim says that on the numeric column
`[1,2,3,4,100]` with threshold `3.0` exactly one row is flagged.  With
the code's sample standard deviation (`ddof = 1`), the outlier's z-score
is `78/√1902.5 ≈ 1.79 < 3`, so no row is flagged at that threshold. -/
theorem c2_counterexample :
    (detectAnomalies dfOutlier 3).length = 0 ∧
    (detectAnomalies dfOutlier 3).length ≠ 1 := by
  have h : detectAnomalies dfOutlier 3 = [] := by
    norm_num [detectAnomalies, getCol, colMeanVar, numValues, meanQ, anomFlag,
      isNumericCol, dfOutlier, Cell.isNum, Cell.isMissing, List.range_succ,
      List.filterMap_cons, List.filterMap_nil, List.sum_cons, List.sum_nil,
      List.filter_cons, List.filter_nil, List.all_cons, List.all_nil,
      decide_eq_false_iff_not, decide_eq_true_eq]
  rw [h]
  exact ⟨rfl, by decide⟩

/-- C2 (amended): with threshold `3.0` the column `[1,2,3,4,100]` yields
*zero* flagged rows (the maximal |z-score| under the sample standard
deviation is about `1.79`); a constant column such as `[5,5,5,5]` is
skipped for every threshold (zero standard deviation, no division by
zero), and lowering the threshold to `1.5` flags exactly the row with
value `100`. -/
theorem c2_amended :
    detectAnomalies dfOutlier 3 = [] ∧
    (∀ t : ℚ, detectAnomalies dfConst t = []) ∧
    (detectAnomalies dfOutlier (3 / 2)).map (fun r => r.2.2) = [Cell.num 100] := by
  refine ⟨?_, fun t => ?_, ?_⟩
  · norm_num [detectAnomalies, getCol, colMeanVar, numValues, meanQ, anomFlag,
      isNumericCol, dfOutlier, Cell.isNum, Cell.isMissing, List.range_succ,
      List.filterMap_cons, List.filterMap_nil, List.sum_cons, List.sum_nil,
      List.filter_cons, List.filter_nil, List.all_cons, List.all_nil,
      decide_eq_false_iff_not, decide_eq_true_eq]
  · norm_num [detectAnomalies, getCol, colMeanVar, numValues, meanQ, anomFlag,
      isNumericCol, dfConst, Cell.isNum, Cell.isMissing, List.range_succ,
      List.filterMap_cons, List.filterMap_nil, List.sum_cons, List.sum_nil,
      List.filter_cons, List.filter_nil, List.all_cons, List.all_nil,
      decide_eq_false_iff_not, decide_eq_true_eq]
  · norm_num [detectAnomalies, getCol, colMeanVar, numValues, meanQ, anomFlag,
      isNumericCol, dfOutlier, Cell.isNum, Cell.isMissing, List.range_succ,
      List.filterMap_cons, List.filterMap_nil, List.sum_cons, List.sum_nil,
      List.filter_cons, List.filter_nil, List.all_cons, List.all_nil,
      decide_eq_false_iff_not, decide_eq_true_eq]

/-- C5 (code bug): `app_v2.py`'s `fill_missing` evaluates `mode()[0]` on
an all-missing column, where `mode()` is empty, so the `Fill by most
common` run raises `KeyError` and the whole cleaning run aborts — the
claim (and the spec) requires the column to be skipped and the pipeline to
continue, which is exactly what `sprint3.py`'s guarded branch does:
column `x` stays all-missing and column `y` is still filled. -/
theorem c5_code_bug :
    fill_missing dfAllMissing FillMethod.fillMode = none ∧
    clean dfAllMissing cfgMode = none ∧
    fillModeSprint3 dfAllMissing =
      ⟨["x", "y"], [[Cell.missing, Cell.num 1], [Cell.missing, Cell.num 1]]⟩ := by
  refine ⟨by decide, ?_, by decide⟩
  have h : fill_missing dfAllMissing cfgMode.fillMethod = none := by decide
  simp [clean, h]

/-- C6 (counterexample): the claim says each internal *run* of
whitespace becomes a single underscore.  The code replaces each space
character separately and leaves tabs alone: a two-space run becomes two
underscores and an internal tab survives. -/
theorem c6_counterexample :
    standardizeName "A  B" = "a__b" ∧ standardizeName "A  B" ≠ "a_b" ∧
    standardizeName "A\tB" = "a\tb" ∧ standardizeName "A\tB" ≠ "a_b" := by
  decide

/-- C6 (amended): the column-name standardization trims surrounding
whitespace, lowercases, and replaces each single space character with an
underscore — character for character, never collapsing runs: the result
always has exactly the length of the trimmed header, consecutive spaces
give consecutive underscores, and non-space whitespace such as tabs is
left as-is. -/
theorem c6_amended :
    (∀ s : String, standardizeName s =
      String.mk ((stripList s.data).map
        (fun c => if c.toLower = ' ' then '_' else c.toLower))) ∧
    (∀ s : String, (standardizeName s).length = (pyStrip s).length) ∧
    standardizeName "  First Name " = "first_name" ∧
    standardizeName "A  B" = "a__b" ∧
    standardizeName "A\tB" = "a\tb" := by
  refine ⟨fun s => ?_, fun s => ?_, by decide, by decide, by decide⟩
  · show String.mk (((stripList s.data).map Char.toLower).map
        (fun c => if c = ' ' then '_' else c)) =
      String.mk ((stripList s.data).map
        (fun c => if c.toLower = ' ' then '_' else c.toLower))
    rw [List.map_map]
    rfl
  · simp [standardizeName, pyReplaceChar, pyLower, pyStrip, String.length]

/-- C6 (witness): the amended length-preservation applied to the
two-space header. -/
theorem c6_witness : (standardizeName "A  B").length = (pyStrip "A  B").length :=
  c6_amended.2.1 "A  B"

/-- C3: the date-fixing stage rewrites exactly the columns whose name
contains `"date"` (case-insensitively), mapping each cell through the
parser that tries `%Y-%m-%d`, `%d/%m/%y`, `%d/%m/%Y`, `%b %d, %Y`,
`%Y.%m.%d` in that order and reformats the first success to
`YYYY-MM-DD`; other columns are untouched.  `"01/02/23"` parses under
the `DD/MM/YY` rule to `"2023-02-01"` and `"not-a-date"` passes through
unchanged. -/
theorem c3 : ∀ (df : DF) (i : Nat), Rect df → i < df.headers.length →
    (isDateName (df.headers.getD i "") = true →
      getCol (fixDatesDF df) i = (getCol df i).map parseDateCell) ∧
    (isDateName (df.headers.getD i "") = false →
      getCol (fixDatesDF df) i = getCol df i) ∧
    parseDateCell (Cell.str "01/02/23") = Cell.str "2023-02-01" ∧
    parseDateCell (Cell.str "not-a-date") = Cell.str "not-a-date" := by
  intro df i hrect hi
  refine ⟨fun hd => ?_, fun hd => ?_, by decide, by decide⟩
  · rw [fixDatesDF_getCol hrect hi, if_pos hd]
  · rw [fixDatesDF_getCol hrect hi, if_neg (by rw [hd]; exact Bool.false_ne_true)]

/-- C3 (witness): the dispatch applied to a concrete frame with a
date-named first column and an ordinary second column. -/
theorem c3_witness :
    getCol (fixDatesDF dfDates) 0 = (getCol dfDates 0).map parseDateCell ∧
    getCol (fixDatesDF dfDates) 1 = getCol dfDates 1 :=
  ⟨(c3 dfDates 0 (by decide) (by decide)).1 (by decide),
   (c3 dfDates 1 (by decide) (by decide)).2.1 (by decide)⟩

/-- C10: text normalization stringifies every cell of a selected column
(`astype(str)`) before casing, so a missing cell becomes the literal
title-cased string `"Nan"`: after the stage, a selected column contains
no missing cells at all and contributes nothing to `nulls_after`. -/
theorem c10 : ∀ (df : DF) (i : Nat), Rect df → i < df.headers.length →
    isNumericCol (getCol df i) = false →
    isEmailName (df.headers.getD i "") = false →
    getCol (normalizeTextDF df) i = (getCol df i).map normTextCell ∧
    normTextCell Cell.missing = Cell.str "Nan" ∧
    countMissing (getCol (normalizeTextDF df) i) = 0 := by
  intro df i hrect hi hnum hemail
  have hcol : getCol (normalizeTextDF df) i = (getCol df i).map normTextCell := by
    rw [normalizeTextDF_getCol hrect hi, if_neg (by rw [hnum]; exact Bool.false_ne_true),
      if_neg (by rw [hemail]; exact Bool.false_ne_true)]
  refine ⟨hcol, by decide, ?_⟩
  rw [hcol, countMissing_eq_zero]
  intro c hc
  obtain ⟨c0, -, rfl⟩ := List.mem_map.mp hc
  rfl

/-- C10 (witness): the stage applied to a text column holding one string
and one missing cell. -/
theorem c10_witness :
    getCol (normalizeTextDF dfText) 0 = (getCol dfText 0).map normTextCell ∧
    countMissing (getCol (normalizeTextDF dfText) 0) = 0 :=
  ⟨(c10 dfText 0 (by decide) (by decide) (by decide) (by decide)).1,
   (c10 dfText 0 (by decide) (by decide) (by decide) (by decide)).2.2⟩

/-- C8: with dedup and anomaly detection off, a completed run satisfies
`rows_after ≤ rows_before` under `Drop Rows` and
`rows_after = rows_before` under every other missing-value strategy —
no other pipeline step removes rows from the primary dataset. -/
theorem c8 : ∀ (df : DF) (cfg : Config)
    (out : DF × List (List Cell × String × Cell)),
    cfg.doDuplicates = false → cfg.doAnomaly = false →
    clean df cfg = some out →
    (cfg.fillMethod = FillMethod.dropRows → out.1.rows.length ≤ df.rows.length) ∧
    (cfg.fillMethod ≠ FillMethod.dropRows → out.1.rows.length = df.rows.length) := by
  intro df cfg out hdup han hclean
  simp only [clean] at hclean
  cases hfill : fill_missing df cfg.fillMethod with
  | none => rw [hfill] at hclean; cases hclean
  | some f1 =>
      rw [hfill] at hclean
      simp only [hdup, Bool.false_eq_true, if_false] at hclean
      rw [Option.some.injEq] at hclean
      have hif : ∀ (b : Bool) (f : DF → DF),
          (∀ d, (f d).rows.length = d.rows.length) →
          ∀ d : DF, (if b = true then f d else d).rows.length = d.rows.length := by
        intro b f hf d
        cases b
        · simp
        · simp [hf d]
      have hlen : out.1.rows.length = f1.rows.length := by
        rw [← hclean]
        rw [hif cfg.doFuzzy fuzzyDF fuzzyDF_rows_length,
          hif cfg.doValidateEmails validateEmailsDF validateEmailsDF_rows_length,
          hif cfg.doFixDates fixDatesDF fixDatesDF_rows_length,
          hif cfg.doNormalizeText normalizeTextDF normalizeTextDF_rows_length,
          hif cfg.doStandardizeCols standardizeCols (fun d => rfl)]
      constructor
      · intro hm
        rw [hlen]
        exact fillLoop_rows_le _ df f1 hfill
      · intro hm
        rw [hlen]
        exact fillLoop_rows_eq_nondrop hm _ df f1 hfill

/-- C8 (witness): under `Drop Rows` the two-column frame with one
missing cell loses its incomplete row. -/
theorem c8_witness :
    ((⟨["a", "b"], [[Cell.num 2, Cell.str "x"]]⟩ : DF), ([] :
      List (List Cell × String × Cell))).1.rows.length ≤ dfTwoCol.rows.length :=
  (c8 dfTwoCol cfgDrop (⟨["a", "b"], [[Cell.num 2, Cell.str "x"]]⟩, [])
    rfl rfl (by decide)).1 rfl

/-- C4 (counterexample): the claim says a second run with the same
configuration (`remove_duplicates = true`) never removes further rows.
With text normalization enabled, the first run dedups `"a"` and `"A"`
as distinct and only then normalizes both to `"A"`; the second run's
dedup then removes one of the now-identical rows: 2 rows in, 1 row
out. -/
theorem c4_counterexample :
    cfgCase.doDuplicates = true ∧
    clean dfCase cfgCase = some (⟨["name"], [[Cell.str "A"], [Cell.str "A"]]⟩, []) ∧
    (⟨["name"], [[Cell.str "A"], [Cell.str "A"]]⟩ : DF).rows.length = 2 ∧
    (clean ⟨["name"], [[Cell.str "A"], [Cell.str "A"]]⟩ cfgCase).map
      (fun r => r.1.rows.length) = some 1 := by
  decide

/-- C4 (amended): cleaning *is* idempotent on row count once the steps
that rewrite cell values after deduplication (text normalization, date
fixing, email validation, fuzzy standardization) are disabled: for any
rectangular dataset and any configuration with `remove_duplicates = true`
and those four toggles off, if both runs complete then the second run
removes no rows. -/
theorem c4_amended :
    ∀ (df : DF) (cfg : Config) (d1 d2 : DF)
      (a1 a2 : List (List Cell × String × Cell)),
      Rect df → cfg.doDuplicates = true →
      cfg.doNormalizeText = false → cfg.doFixDates = false →
      cfg.doValidateEmails = false → cfg.doFuzzy = false →
      clean df cfg = some (d1, a1) → clean d1 cfg = some (d2, a2) →
      d2.rows.length = d1.rows.length := by
  intro df cfg d1 d2 a1 a2 hrect hdup hnt hfd hve hfz h1 h2
  obtain ⟨hnoop, hnodup, -⟩ := clean_output_stable hrect hdup hnt hfd hve hfz h1
  simp only [clean, hnoop, hdup, hnt, hfd, hve, hfz, eq_self_iff_true,
    Bool.false_eq_true, if_true, if_false] at h2
  rw [dropDuplicates_of_nodup hnodup] at h2
  rw [Option.some.injEq, Prod.mk.injEq] at h2
  obtain ⟨hd2, -⟩ := h2
  rw [← hd2]
  cases hsc : cfg.doStandardizeCols
  · simp
  · simp [standardizeCols_rows]

/-- C4 (witness): the amended idempotence applied to a frame with one
duplicated row and the dedup-only configuration. -/
theorem c4_witness :
    (⟨["name"], [[Cell.str "a"], [Cell.str "b"]]⟩ : DF).rows.length =
      (⟨["name"], [[Cell.str "a"], [Cell.str "b"]]⟩ : DF).rows.length :=
  c4_amended dfDup cfgDedupOnly
    ⟨["name"], [[Cell.str "a"], [Cell.str "b"]]⟩
    ⟨["name"], [[Cell.str "a"], [Cell.str "b"]]⟩ [] []
    (by decide) rfl rfl rfl rfl rfl (by decide) (by decide)

/-! ## Concrete similarity ratios for the fuzzy-consolidation claims

`"abcdefxh"` and `"abcdefg"` are each within the `0.85` cutoff of
`"abcdefgh"` (ratios `7/8` and `14/15`) but not of each other
(ratio `4/5`). -/

set_option maxRecDepth 1000000 in
theorem ratio_xh_gh : ratioQ "abcdefxh" "abcdefgh" = 7 / 8 := by
  have hm : matchSum "abcdefxh".data "abcdefgh".data = 7 := by decide
  have hla : "abcdefxh".data.length = 8 := by decide
  have hlb : "abcdefgh".data.length = 8 := by decide
  simp only [ratioQ, hm, hla, hlb]
  norm_num

set_option maxRecDepth 1000000 in
theorem ratio_xh_g : ratioQ "abcdefxh" "abcdefg" = 4 / 5 := by
  have hm : matchSum "abcdefxh".data "abcdefg".data = 6 := by decide
  have hla : "abcdefxh".data.length = 8 := by decide
  have hlb : "abcdefg".data.length = 7 := by decide
  simp only [ratioQ, hm, hla, hlb]
  norm_num

set_option maxRecDepth 1000000 in
theorem ratio_g_gh : ratioQ "abcdefg" "abcdefgh" = 14 / 15 := by
  have hm : matchSum "abcdefg".data "abcdefgh".data = 7 := by decide
  have hla : "abcdefg".data.length = 7 := by decide
  have hlb : "abcdefgh".data.length = 8 := by decide
  simp only [ratioQ, hm, hla, hlb]
  norm_num

set_option maxRecDepth 1000000 in
theorem ratio_gh_xh : ratioQ "abcdefgh" "abcdefxh" = 7 / 8 := by
  have hm : matchSum "abcdefgh".data "abcdefxh".data = 7 := by decide
  have hla : "abcdefgh".data.length = 8 := by decide
  have hlb : "abcdefxh".data.length = 8 := by decide
  simp only [ratioQ, hm, hla, hlb]
  norm_num

set_option maxRecDepth 1000000 in
theorem ratio_gh_g : ratioQ "abcdefgh" "abcdefg" = 14 / 15 := by
  have hm : matchSum "abcdefgh".data "abcdefg".data = 7 := by decide
  have hla : "abcdefgh".data.length = 8 := by decide
  have hlb : "abcdefg".data.length = 7 := by decide
  simp only [ratioQ, hm, hla, hlb]
  norm_num

theorem ratio_nyc_nan : ratioQ "NYC" "nan" = 0 := by
  have hm : matchSum "NYC".data "nan".data = 0 := by decide
  have hla : "NYC".data.length = 3 := by decide
  have hlb : "nan".data.length = 3 := by decide
  simp only [ratioQ, hm, hla, hlb]
  norm_num

theorem ratio_ax_ab : ratioQ "ax" "ab" = 1 / 2 := by
  have hm : matchSum "ax".data "ab".data = 1 := by decide
  have hla : "ax".data.length = 2 := by decide
  have hlb : "ab".data.length = 2 := by decide
  simp only [ratioQ, hm, hla, hlb]
  norm_num

theorem ratio_bx_ab : ratioQ "bx" "ab" = 1 / 2 := by
  have hm : matchSum "bx".data "ab".data = 1 := by decide
  have hla : "bx".data.length = 2 := by decide
  have hlb : "ab".data.length = 2 := by decide
  simp only [ratioQ, hm, hla, hlb]
  norm_num

theorem bm_tie_forward : bestMatch "ab" ["ax", "bx"] (1 / 2) = some "bx" := by
  have hlt : ("ax" : String) < "bx" := by
    rw [String.lt_iff_toList_lt]
    decide
  norm_num [bestMatch, bmStep, ratio_ax_ab, ratio_bx_ab, hlt]

theorem bm_tie_reverse : bestMatch "ab" ["bx", "ax"] (1 / 2) = some "bx" := by
  have hnlt : ¬ ("bx" : String) < "ax" := by
    rw [String.lt_iff_toList_lt]
    decide
  norm_num [bestMatch, bmStep, ratio_ax_ab, ratio_bx_ab, hnlt]

theorem bm_g_after_xh : bestMatch "abcdefg" ["abcdefxh"] (17 / 20) = none := by
  norm_num [bestMatch, bmStep, ratio_xh_g]

theorem bm_gh_after_both :
    bestMatch "abcdefgh" ["abcdefxh", "abcdefg"] (17 / 20) = some "abcdefg" := by
  norm_num [bestMatch, bmStep, ratio_xh_gh, ratio_g_gh]

theorem bm_xh_after_gh : bestMatch "abcdefxh" ["abcdefgh"] (17 / 20) = some "abcdefgh" := by
  norm_num [bestMatch, bmStep, ratio_gh_xh]

theorem bm_g_after_gh_xh :
    bestMatch "abcdefg" ["abcdefgh", "abcdefxh"] (17 / 20) = some "abcdefgh" := by
  norm_num [bestMatch, bmStep, ratio_gh_g, ratio_xh_g]

theorem bm_nan_after_nyc : bestMatch "nan" ["NYC"] (17 / 20) = none := by
  norm_num [bestMatch, bmStep, ratio_nyc_nan]

theorem fmap_first_order : buildFuzzyMap ["abcdefxh", "abcdefg", "abcdefgh"] (17 / 20) =
    [("abcdefxh", "abcdefxh"), ("abcdefg", "abcdefg"), ("abcdefgh", "abcdefg")] := by
  simp only [buildFuzzyMap, List.foldl_cons, List.foldl_nil, List.map_nil]
  rw [show bestMatch "abcdefxh" [] (17 / 20) = none from rfl]
  simp only [List.nil_append, List.map_cons, List.map_nil]
  rw [bm_g_after_xh]
  simp only [List.cons_append, List.nil_append, List.map_cons, List.map_nil]
  rw [bm_gh_after_both]
  decide

theorem fmap_second_order : buildFuzzyMap ["abcdefgh", "abcdefxh", "abcdefg"] (17 / 20) =
    [("abcdefgh", "abcdefgh"), ("abcdefxh", "abcdefgh"), ("abcdefg", "abcdefgh")] := by
  simp only [buildFuzzyMap, List.foldl_cons, List.foldl_nil, List.map_nil]
  rw [show bestMatch "abcdefgh" [] (17 / 20) = none from rfl]
  simp only [List.nil_append, List.map_cons, List.map_nil]
  rw [bm_xh_after_gh]
  simp only [List.cons_append, List.nil_append, List.map_cons, List.map_nil]
  rw [bm_g_after_gh_xh]
  decide

theorem fmap_nyc : buildFuzzyMap ["NYC", "nan"] (17 / 20) =
    [("NYC", "NYC"), ("nan", "nan")] := by
  simp only [buildFuzzyMap, List.foldl_cons, List.foldl_nil, List.map_nil]
  rw [show bestMatch "NYC" [] (17 / 20) = none from rfl]
  simp only [List.nil_append, List.map_cons, List.map_nil]
  rw [bm_nan_after_nyc]
  rfl

theorem fuzzy_first_order : fuzzyStandardize
    [Cell.str "abcdefxh", Cell.str "abcdefg", Cell.str "abcdefgh"] (17 / 20) =
    [Cell.str "abcdefxh", Cell.str "abcdefg", Cell.str "abcdefg"] := by
  have hstr : ([Cell.str "abcdefxh", Cell.str "abcdefg", Cell.str "abcdefgh"].map
      (fun c => pyStrip (pyStr c))) = ["abcdefxh", "abcdefg", "abcdefgh"] := by decide
  have huniq : uniquesFS ["abcdefxh", "abcdefg", "abcdefgh"] =
      ["abcdefxh", "abcdefg", "abcdefgh"] := by decide
  simp only [fuzzyStandardize, hstr, huniq, fmap_first_order]
  decide

theorem fuzzy_second_order : fuzzyStandardize
    [Cell.str "abcdefgh", Cell.str "abcdefxh", Cell.str "abcdefg"] (17 / 20) =
    [Cell.str "abcdefgh", Cell.str "abcdefgh", Cell.str "abcdefgh"] := by
  have hstr : ([Cell.str "abcdefgh", Cell.str "abcdefxh", Cell.str "abcdefg"].map
      (fun c => pyStrip (pyStr c))) = ["abcdefgh", "abcdefxh", "abcdefg"] := by decide
  have huniq : uniquesFS ["abcdefgh", "abcdefxh", "abcdefg"] =
      ["abcdefgh", "abcdefxh", "abcdefg"] := by decide
  simp only [fuzzyStandardize, hstr, huniq, fmap_second_order]
  decide

theorem fuzzy_nyc : fuzzyStandardize [Cell.str " NYC ", Cell.missing] (17 / 20) =
    [Cell.str "NYC", Cell.str "nan"] := by
  have hstr : ([Cell.str " NYC ", Cell.missing].map
      (fun c => pyStrip (pyStr c))) = ["NYC", "nan"] := by decide
  have huniq : uniquesFS ["NYC", "nan"] = ["NYC", "nan"] := by decide
  simp only [fuzzyStandardize, hstr, huniq, fmap_nyc]
  decide

/-- C7 (counterexample): the claim says each distinct value maps to the
canonical value of the *first* already-processed key whose ratio reaches
the cutoff.  Processing `"abcdefxh"`, `"abcdefg"`, `"abcdefgh"` in that
order with cutoff `0.85`, the first key `"abcdefxh"` is within the
cutoff of `"abcdefgh"` (ratio `7/8`), so the claim predicts
`"abcdefgh" ↦ "abcdefxh"`; `get_close_matches` instead picks the
best-ratio key `"abcdefg"` (ratio `14/15`). -/
theorem c7_counterexample :
    fuzzyStandardize [Cell.str "abcdefxh", Cell.str "abcdefg", Cell.str "abcdefgh"]
      (17 / 20) = [Cell.str "abcdefxh", Cell.str "abcdefg", Cell.str "abcdefg"] ∧
    (17 / 20 : ℚ) ≤ ratioQ "abcdefxh" "abcdefgh" ∧
    Cell.str "abcdefg" ≠ Cell.str "abcdefxh" := by
  refine ⟨fuzzy_first_order, ?_, by decide⟩
  rw [ratio_xh_gh]
  norm_num

/-- C7 (amended): the consolidator processes the distinct values of the
stringified, whitespace-stripped column (missing cells become the string
`"nan"`) in first-seen order; each value maps to the canonical value of
the already-processed key of *maximal* similarity ratio among those
reaching the cutoff — `none` exists exactly when every processed key is
below the cutoff, and a selected key is maximal in the `(ratio, key)`
pair order that `heapq.nlargest(1, ...)` maximizes: every other key
either has a strictly smaller ratio or ties the ratio with a
lexicographically smaller key (so ratio ties go to the lexicographically
largest key, as the two tie examples with `"ax"`/`"bx"` show) — and
otherwise becomes its own canonical value; the mapping is applied to
every stripped cell.  For a fixed input order the result is a function
of the column, and the two orderings of the same three values below
produce different groupings. -/
theorem c7_amended :
    (∀ (v : String) (keys : List String) (cutoff : ℚ),
      bestMatch v keys cutoff = none ↔ ∀ k ∈ keys, ratioQ k v < cutoff) ∧
    (∀ (v : String) (keys : List String) (cutoff : ℚ) (k : String),
      bestMatch v keys cutoff = some k →
      cutoff ≤ ratioQ k v ∧
        ∃ pre post, keys = pre ++ k :: post ∧
          (∀ x ∈ pre, ratioQ x v < ratioQ k v ∨ (ratioQ x v = ratioQ k v ∧ x < k)) ∧
          (∀ x ∈ post, ratioQ x v < ratioQ k v ∨ (ratioQ x v = ratioQ k v ∧ ¬ k < x))) ∧
    bestMatch "ab" ["ax", "bx"] (1 / 2) = some "bx" ∧
    bestMatch "ab" ["bx", "ax"] (1 / 2) = some "bx" ∧
    fuzzyStandardize [Cell.str "abcdefxh", Cell.str "abcdefg", Cell.str "abcdefgh"]
      (17 / 20) = [Cell.str "abcdefxh", Cell.str "abcdefg", Cell.str "abcdefg"] ∧
    fuzzyStandardize [Cell.str "abcdefgh", Cell.str "abcdefxh", Cell.str "abcdefg"]
      (17 / 20) = [Cell.str "abcdefgh", Cell.str "abcdefgh", Cell.str "abcdefgh"] ∧
    fuzzyStandardize [Cell.str " NYC ", Cell.missing] (17 / 20) =
      [Cell.str "NYC", Cell.str "nan"] :=
  ⟨fun v keys cutoff => bestMatch_none_iff v keys cutoff,
   fun _ _ _ _ h => bestMatch_some_spec h,
   bm_tie_forward, bm_tie_reverse,
   fuzzy_first_order, fuzzy_second_order, fuzzy_nyc⟩

/-- C7 (witness): the best-match characterization applied to the
concrete selection of `"abcdefg"` for `"abcdefgh"`. -/
theorem c7_witness :
    (17 / 20 : ℚ) ≤ ratioQ "abcdefg" "abcdefgh" ∧
      ∃ pre post, ["abcdefxh", "abcdefg"] = pre ++ "abcdefg" :: post ∧
        (∀ x ∈ pre, ratioQ x "abcdefgh" < ratioQ "abcdefg" "abcdefgh" ∨
          (ratioQ x "abcdefgh" = ratioQ "abcdefg" "abcdefgh" ∧ x < "abcdefg")) ∧
        (∀ x ∈ post, ratioQ x "abcdefgh" < ratioQ "abcdefg" "abcdefgh" ∨
          (ratioQ x "abcdefgh" = ratioQ "abcdefg" "abcdefgh" ∧ ¬ "abcdefg" < x)) :=
  c7_amended.2.1 "abcdefgh" ["abcdefxh", "abcdefg"] (17 / 20) "abcdefg" bm_gh_after_both

/-! ## Heap lemmas for the no-mutation claim -/

theorem heapGet_append_lt {h : List DF} {x : DF} {r : Nat} (hr : r < h.length) :
    heapGet (h ++ [x]) r = heapGet h r := by
  simp [heapGet, List.getD_eq_getElem?_getD, List.getElem?_append_left hr]

theorem heapGet_append_self (h : List DF) (x : DF) : heapGet (h ++ [x]) h.length = x := by
  simp [heapGet, List.getD_eq_getElem?_getD, List.getElem?_concat_length]

theorem heapGet_set_self {h : List DF} {r : Nat} (x : DF) (hr : r < h.length) :
    heapGet (h.set r x) r = x := getD_set_self h r x _ hr

theorem heapGet_set_ne {h : List DF} {r s : Nat} (x : DF) (hne : r ≠ s) :
    heapGet (h.set r x) s = heapGet h s := getD_set_ne h x _ hne

theorem heapStep_get_ne {hh : List DF} {s r : Nat} (b : Bool) (f : DF → DF) (hne : s ≠ r) :
    heapGet (if b = true then hh.set s (f (heapGet hh s)) else hh) r = heapGet hh r := by
  cases b
  · rfl
  · simp only [if_true]
    exact heapGet_set_ne _ hne

theorem heapStep_get_self {hh : List DF} {s : Nat} (b : Bool) (f : DF → DF)
    (hs : s < hh.length) :
    heapGet (if b = true then hh.set s (f (heapGet hh s)) else hh) s =
      if b = true then f (heapGet hh s) else heapGet hh s := by
  cases b
  · rfl
  · simp only [if_true]
    exact heapGet_set_self _ hs

theorem heapStep_length {hh : List DF} {s : Nat} (b : Bool) (f : DF → DF) :
    (if b = true then hh.set s (f (heapGet hh s)) else hh).length = hh.length := by
  cases b
  · rfl
  · simp only [if_true, List.length_set]

/-- C9: the run never mutates the caller's dataset.  In the heap model —
`.copy()` allocates a fresh object, every in-place step overwrites the
object `df_cleaned` refers to — a completed run leaves the object the
input reference points to untouched, returns a reference allocated after
all pre-existing ones, and the value at that reference (and the anomaly
value) is exactly what the pure pipeline computes from the pre-call
input. -/
theorem c9 : ∀ (h0 : List DF) (r : Nat) (cfg : Config) (hout : List DF) (c : Nat)
    (an : List (List Cell × String × Cell)),
    r < h0.length → cleanHeap h0 r cfg = some (hout, c, an) →
    heapGet hout r = heapGet h0 r ∧ h0.length ≤ c ∧
    clean (heapGet h0 r) cfg = some (heapGet hout c, an) := by
  intro h0 r cfg hout c an hr hclean
  simp only [cleanHeap] at hclean
  rw [heapGet_append_self] at hclean
  rw [heapGet_append_self] at hclean
  cases hfill : fill_missing (heapGet h0 r) cfg.fillMethod with
  | none => rw [hfill] at hclean; cases hclean
  | some filled =>
      rw [hfill] at hclean
      rw [Option.some.injEq, Prod.mk.injEq, Prod.mk.injEq] at hclean
      obtain ⟨hh9, hc1, han⟩ := hclean
      subst hh9
      subst hc1
      subst han
      have hc1len : (h0 ++ [heapGet h0 r]).length = h0.length + 1 := by simp
      have hrc1 : (h0 ++ [heapGet h0 r]).length ≠ r := by omega
      refine ⟨?_, by omega, ?_⟩
      · rw [heapStep_get_ne _ _ hrc1, heapStep_get_ne _ _ hrc1,
          heapStep_get_ne _ _ hrc1, heapStep_get_ne _ _ hrc1,
          heapStep_get_ne _ _ hrc1, heapStep_get_ne _ _ hrc1,
          heapGet_set_ne _ hrc1,
          heapGet_append_lt (by simp; omega),
          heapGet_append_lt hr]
      · rw [heapStep_get_self _ _ (by
            rw [heapStep_length, heapStep_length, heapStep_length,
              heapStep_length, heapStep_length, List.length_set]
            simp),
          heapStep_get_self _ _ (by
            rw [heapStep_length, heapStep_length, heapStep_length,
              heapStep_length, List.length_set]
            simp),
          heapStep_get_self _ _ (by
            rw [heapStep_length, heapStep_length, heapStep_length, List.length_set]
            simp),
          heapStep_get_self _ _ (by
            rw [heapStep_length, heapStep_length, List.length_set]
            simp),
          heapStep_get_self _ _ (by
            rw [heapStep_length, List.length_set]
            simp),
          heapStep_get_self _ _ (by
            rw [List.length_set]
            simp),
          heapGet_set_self _ (by simp)]
        simp only [clean, hfill]

/-- C9 (witness): the heap theorem applied to a one-frame heap and the
dedup-only configuration: the input object is untouched, the result
lives at the freshly allocated reference `2`, and its value agrees with
the pure pipeline. -/
theorem c9_witness :
    heapGet [dfDup, dfDup, ⟨["name"], [[Cell.str "a"], [Cell.str "b"]]⟩] 0 =
        heapGet [dfDup] 0 ∧
      [dfDup].length ≤ 2 ∧
      clean (heapGet [dfDup] 0) cfgDedupOnly =
        some (heapGet [dfDup, dfDup, ⟨["name"], [[Cell.str "a"], [Cell.str "b"]]⟩] 2, []) :=
  c9 [dfDup] 0 cfgDedupOnly [dfDup, dfDup, ⟨["name"], [[Cell.str "a"], [Cell.str "b"]]⟩]
    2 [] (by decide) (by rfl)

end RawToReady
